import Mathlib

/-
Verification of the minesweeper-solver core (src/src/main.rs) against its
natural-language specification.  The Rust code is shallowly embedded:
machine integers become Nat/Int, `Vec<Vec<CellTypes>>` becomes
`List (List CellTypes)`, the `Result<_, String>` values become `Except` of
structured error types that carry the same data as the formatted messages,
and the `HashSet<u64>` of `DefaultHasher` content hashes is modelled by the
injective content sequence that the hasher consumes (the per-cell `id()`
discriminants in row-major order).
-/

namespace Minesweeper

/-- Cell states of the grid: `Covered` unknown, `Bomb` a (assumed) mine,
`Value n` a revealed cell with `n` mines among its neighbours.
Mirrors `enum CellTypes` in src/src/main.rs. -/
inductive CellTypes where
  | Covered : CellTypes
  | Bomb : CellTypes
  | Value : Nat → CellTypes
deriving DecidableEq, Repr

namespace CellTypes

/-- Mirrors `CellTypes::from_char`: '-' is a revealed clear cell, '?' covered,
'X'/'x' a bomb, digits 1-8 their value; anything else is unrecognised. -/
def fromChar : Char → Option CellTypes
  | '-' => some (Value 0)
  | '?' => some Covered
  | 'X' => some Bomb
  | 'x' => some Bomb
  | '1' => some (Value 1)
  | '2' => some (Value 2)
  | '3' => some (Value 3)
  | '4' => some (Value 4)
  | '5' => some (Value 5)
  | '6' => some (Value 6)
  | '7' => some (Value 7)
  | '8' => some (Value 8)
  | _ => none

/-- Mirrors `CellTypes::char`: covered renders '?', a bomb renders lowercase
'x', value 0 renders '-', any other value renders the first character of its
decimal representation. -/
def char : CellTypes → Char
  | Covered => '?'
  | Bomb => 'x'
  | Value v => if v = 0 then '-' else (Nat.toDigits 10 v).headD '0'

/-- Mirrors `CellTypes::id`, the per-cell discriminant fed to the hasher. -/
def id : CellTypes → Nat
  | Value v => v
  | Covered => 9
  | Bomb => 10

end CellTypes

/-- The board: a grid of cells with its dimensions, mirroring `struct Board`. -/
structure Board where
  board : List (List CellTypes)
  width : Nat
  height : Nat
deriving DecidableEq, Repr

namespace Board

/-- The rectangularity invariant that `Board::from_string` establishes:
the row list has length `height` and every row has length `width`. -/
def WF (b : Board) : Prop :=
  b.board.length = b.height ∧ ∀ row ∈ b.board, row.length = b.width

instance (b : Board) : Decidable b.WF := by
  unfold WF; infer_instance

/-- Reads `self.board[y][x]`; out-of-range reads (which would panic in Rust
and never happen on the boards in play) return `Covered`. -/
def cellAt (b : Board) (x y : Nat) : CellTypes :=
  (b.board.getD y []).getD x CellTypes.Covered

/-- Writes `self.board[y][x] = c`; out-of-range writes are dropped. -/
def setCell (b : Board) (x y : Nat) (c : CellTypes) : Board :=
  { b with board := b.board.set y ((b.board.getD y []).set x c) }

/-- The coordinates of the grid in the scan order used throughout the code:
`for x in 0..width { for y in 0..height { ... } }`. -/
def coords (b : Board) : List (Nat × Nat) :=
  (List.range b.width).flatMap (fun x => (List.range b.height).map (fun y => (x, y)))

/-- The eight neighbour offsets, in the order the code lists them. -/
def offsets : List (Int × Int) :=
  [(-1, -1), (-1, 0), (-1, 1), (0, 1), (1, 1), (1, 0), (1, -1), (0, -1)]

/-- In-bounds neighbour coordinates of `(x, y)`, mirroring the bounds check
`x < 0 || y < 0 || x >= width || y >= height` in the neighbour loops. -/
def neighborList (b : Board) (x y : Nat) : List (Nat × Nat) :=
  offsets.filterMap (fun o =>
    let nx : Int := (x : Int) + o.1
    let ny : Int := (y : Int) + o.2
    if nx < 0 ∨ ny < 0 ∨ (b.width : Int) ≤ nx ∨ (b.height : Int) ≤ ny then none
    else some (nx.toNat, ny.toNat))

/-- The number of `Bomb` neighbours of `(x, y)`. -/
def bombNeighborCount (b : Board) (x y : Nat) : Nat :=
  (b.neighborList x y).countP (fun p => b.cellAt p.1 p.2 = CellTypes.Bomb)

/-- The covered neighbours of `(x, y)` (the code's `possible_cells`),
in the order the offsets are scanned. -/
def coveredNeighborList (b : Board) (x y : Nat) : List (Nat × Nat) :=
  (b.neighborList x y).filter (fun p => b.cellAt p.1 p.2 = CellTypes.Covered)

/-- The number of `Covered` neighbours of `(x, y)`. -/
def coveredNeighborCount (b : Board) (x y : Nat) : Nat :=
  (b.neighborList x y).countP (fun p => b.cellAt p.1 p.2 = CellTypes.Covered)

/-- For a numbered cell with value `v > 0`: its `required` (value minus bomb
neighbours, an `i32` in the code) and `slack` (covered-neighbour count);
`none` for every other cell, which the validator and propagator skip. -/
def cellData (b : Board) (x y : Nat) : Option (Int × Nat) :=
  match b.cellAt x y with
  | CellTypes.Value v =>
    if v = 0 then none
    else some ((v : Int) - (b.bombNeighborCount x y : Int), b.coveredNeighborCount x y)
  | _ => none

end Board

/-- The structured content of the validation error messages: the code's
"Cell at position [x, y] has E bombs more than it should have" and
"Cell at position [x, y] requires R bomb(s) however only S cell(s) can
contain bombs". -/
inductive ValidateError where
  | overConstrained (x y : Nat) (excess : Int)
  | unsatisfiable (x y : Nat) (required : Int) (slack : Nat)
deriving DecidableEq, Repr

/-- The body of the validation loop for one cell: skip non-numbered and
value-0 cells, fail `overConstrained` when `required < 0`, fail
`unsatisfiable` when `possible_cells < required`, otherwise contribute
`required` to the running total. -/
def Board.checkCell (b : Board) (x y : Nat) : Except ValidateError Nat :=
  match b.cellData x y with
  | none => Except.ok 0
  | some rs =>
    if rs.1 < 0 then Except.error (ValidateError.overConstrained x y (-rs.1))
    else if (rs.2 : Int) < rs.1 then Except.error (ValidateError.unsatisfiable x y rs.1 rs.2)
    else Except.ok rs.1.toNat

/-- The cell loop of `Board::validate_board`: visits the remaining cells in
order, returns at the first failing cell, and otherwise accumulates the
`to_satisfy` total. -/
def validateAux (b : Board) : List (Nat × Nat) → Nat → Except ValidateError Nat
  | [], acc => Except.ok acc
  | p :: L, acc =>
    match b.checkCell p.1 p.2 with
    | Except.error e => Except.error e
    | Except.ok r => validateAux b L (acc + r)

/-- Mirrors `Board::validate_board`: scans the cells in the code's order
(`x` outer, `y` inner), stops at the first failing cell, and otherwise
returns the accumulated `to_satisfy` total. -/
def Board.validate_board (b : Board) : Except ValidateError Nat :=
  validateAux b b.coords 0

/-- The amount a single cell adds to the validator's total: `required` for a
numbered cell with positive value (clamped at zero), nothing otherwise. -/
def Board.contribution (b : Board) (x y : Nat) : Nat :=
  match b.cellData x y with
  | none => 0
  | some rs => rs.1.toNat

/-- A cell passes both validation checks: `0 ≤ required ≤ slack`. -/
def Board.cellOk (b : Board) (x y : Nat) : Prop :=
  ∀ rs, b.cellData x y = some rs → 0 ≤ rs.1 ∧ rs.1 ≤ (rs.2 : Int)

/-- The validator's total as a pure sum over the whole grid. -/
def Board.totalRequired (b : Board) : Nat :=
  (b.coords.map (fun p => b.contribution p.1 p.2)).sum

/-- The number of `Covered` cells of the grid. -/
def Board.coveredCount (b : Board) : Nat :=
  b.coords.countP (fun p => b.cellAt p.1 p.2 = CellTypes.Covered)

/-- The body of the propagator's scan for one cell, mirroring the loop body
of `Board::complete_solvable`: numbered cells with value 0 are skipped; if
`required` equals the number of covered neighbours they are all forced to
`Bomb`, and if `required` is 0 they are all forced to `Value 0`; the flag
records whether any cell was written. -/
def completeStep (s : Board × Bool) (p : Nat × Nat) : Board × Bool :=
  match s.1.cellAt p.1 p.2 with
  | CellTypes.Value v =>
    if v = 0 then s
    else
      let possible := s.1.coveredNeighborList p.1 p.2
      let required : Int := (v : Int) - (s.1.bombNeighborCount p.1 p.2 : Int)
      if required = (possible.length : Int) then
        (possible.foldl (fun bb q => bb.setCell q.1 q.2 CellTypes.Bomb) s.1,
         s.2 || !possible.isEmpty)
      else if required = 0 then
        (possible.foldl (fun bb q => bb.setCell q.1 q.2 (CellTypes.Value 0)) s.1,
         s.2 || !possible.isEmpty)
      else s
  | _ => s

/-- Mirrors `Board::complete_solvable`: one full pass over the grid in scan
order, mutating the working board in place (later cells observe earlier
forced moves) and returning the board with the `change_made` flag. -/
def Board.complete_solvable (b : Board) : Board × Bool :=
  b.coords.foldl completeStep (b, false)

/-- The structured content of the parse error messages: the code's
"Irregular line width - expected E found F", "Unrecognised character c" and
"Empty input". -/
inductive ParseError where
  | irregular (expected found : Nat)
  | unrecognised (c : Char)
  | emptyInput
deriving DecidableEq, Repr

/-- Splits a character list at every newline; the empty text yields one
empty segment. -/
def splitOnNl (l : List Char) : List (List Char) :=
  l.foldr (fun c acc => if c = '\n' then [] :: acc else (c :: acc.headD []) :: acc.tail) [[]]

/-- Mirrors Rust's `str::lines` on newline-terminated or unterminated text:
the empty string has no lines, and one trailing newline does not produce a
trailing empty line.  (The `\r\n` form never arises here: every recognised
board character is printable.) -/
def rustLines (l : List Char) : List (List Char) :=
  if l = [] then []
  else splitOnNl (if l.getLast? = some '\n' then l.dropLast else l)

/-- Parses the characters of one line in order, stopping at the first
unrecognised character as the code's `?` operator does. -/
def parseLine : List Char → Except ParseError (List CellTypes)
  | [] => Except.ok []
  | c :: cs =>
    match CellTypes.fromChar c with
    | none => Except.error (ParseError.unrecognised c)
    | some t =>
      match parseLine cs with
      | Except.error e => Except.error e
      | Except.ok row => Except.ok (t :: row)

/-- The line loop of `Board::from_string`: blank lines are skipped, the
first non-blank line fixes the width, any later non-blank line of a
different length aborts with the irregular-width error (checked before that
line's characters are parsed), and rows accumulate in order. -/
def parseLines : List (List Char) → Option Nat → List (List CellTypes) →
    Except ParseError (Option Nat × List (List CellTypes))
  | [], w, acc => Except.ok (w, acc)
  | line :: rest, none, acc =>
    if line.length = 0 then parseLines rest none acc
    else
      match parseLine line with
      | Except.error e => Except.error e
      | Except.ok row => parseLines rest (some line.length) (acc ++ [row])
  | line :: rest, some wv, acc =>
    if line.length = 0 then parseLines rest (some wv) acc
    else if wv = line.length then
      match parseLine line with
      | Except.error e => Except.error e
      | Except.ok row => parseLines rest (some wv) (acc ++ [row])
    else Except.error (ParseError.irregular wv line.length)

/-- Mirrors `Board::from_string`: split the input into lines, run the line
loop, and fail with the empty-input error when no row was produced. -/
def Board.from_string (input : List Char) : Except ParseError Board :=
  match parseLines (rustLines input) none [] with
  | Except.error e => Except.error e
  | Except.ok wr =>
    if wr.2.length = 0 then Except.error ParseError.emptyInput
    else Except.ok { board := wr.2, width := wr.1.getD 0, height := wr.2.length }

/-- Mirrors `Board::to_string`: each row's characters followed by a newline,
with the final newline removed. -/
def Board.to_string (b : Board) : List Char :=
  (b.board.foldl (fun acc row => acc ++ row.map CellTypes.char ++ ['\n']) []).dropLast

/-- Mirrors `Board::get_hash`.  The code feeds the per-cell `id()`
discriminants in row-major order into a 64-bit `DefaultHasher`; the model
keeps the hashed content itself (the grid of discriminants), i.e. the hash
function is modelled as injective on the hashed sequence, which is the
code's intent (collisions are possible there but unhandled). -/
def Board.get_hash (b : Board) : List (List Nat) :=
  b.board.map (fun row => row.map CellTypes.id)

/-- The mutable state threaded through `Board::get_possible_boards`: the
global visited-hash set and ignore set, and the solved/open output lists.
The `HashSet`s are modelled as lists used only through membership. -/
structure SearchState where
  visited : List (List (List Nat))
  ignore : List (Nat × Nat)
  solved : List Board
  openBoards : List Board
deriving DecidableEq, Repr

/-- The body of the candidate loop of `Board::get_possible_boards` for one
coordinate: skip ignored and non-covered coordinates, build the candidate
with that coordinate set to `Bomb`, skip it when its content hash was
already visited (recording the hash otherwise), discard it when it fails
validation, and classify it by its new total: 0 means solved, equal to the
parent total means the coordinate joins the ignore set, anything else is
enqueued as open. -/
def Board.possibleStep (self : Board) (current : Nat) (s : SearchState) (p : Nat × Nat) :
    SearchState :=
  if p ∈ s.ignore then s
  else
    match self.cellAt p.1 p.2 with
    | CellTypes.Covered =>
      let nb := self.setCell p.1 p.2 CellTypes.Bomb
      if nb.get_hash ∈ s.visited then s
      else
        let s1 : SearchState := { s with visited := nb.get_hash :: s.visited }
        match validate_board nb with
        | Except.ok r =>
          if r = 0 then { s1 with solved := s1.solved ++ [nb] }
          else if r = current then { s1 with ignore := p :: s1.ignore }
          else { s1 with openBoards := s1.openBoards ++ [nb] }
        | Except.error _ => s1
    | _ => s

/-- Mirrors `Board::get_possible_boards`: compute the parent's total (the
code unwraps; dequeued boards are always valid) and run the candidate loop
over the grid in scan order. -/
def Board.get_possible_boards (self : Board) (visited : List (List (List Nat)))
    (ignore : List (Nat × Nat)) : SearchState :=
  let current := (validate_board self).toOption.getD 0
  self.coords.foldl (self.possibleStep current)
    { visited := visited, ignore := ignore, solved := [], openBoards := [] }

/-- The state of the work-queue loop in `main`: the open-board queue, the
visited and ignore sets, and the accumulated solved completions. -/
structure DriverState where
  queue : List Board
  visited : List (List (List Nat))
  ignore : List (Nat × Nat)
  possibilities : List Board
deriving DecidableEq, Repr

/-- One iteration of the work-queue loop in `main`: pop the front board,
expand it, append its solved completions to the possibility list and its
open boards to the back of the queue. -/
def driverStep (s : DriverState) : DriverState :=
  match s.queue with
  | [] => s
  | b :: rest =>
    let r := b.get_possible_boards s.visited s.ignore
    { queue := rest ++ r.openBoards, visited := r.visited, ignore := r.ignore,
      possibilities := s.possibilities ++ r.solved }

/-- The work-queue loop of `main`, fuelled: repeats `driverStep` until the
queue is empty or the fuel runs out. -/
def runSearch : Nat → DriverState → DriverState
  | 0, s => s
  | fuel + 1, s => if s.queue = [] then s else runSearch fuel (driverStep s)

/-- The fuel that will be shown sufficient for `runSearch` to drain the
queue: each queued board contributes the factorial of one more than its
covered-cell count. -/
def searchFuel (s : DriverState) : Nat :=
  (s.queue.map (fun b => Nat.factorial (b.coveredCount + 1))).sum

/-- The per-coordinate bomb/non-bomb tallies of `Board::compile_guaranteed`:
across the completions, numbered cells are skipped, `Bomb` counts on the
first side, `Covered` on the second. -/
def tallyAt (possibilities : List Board) (x y : Nat) : Nat × Nat :=
  possibilities.foldl (fun acc p =>
    match p.cellAt x y with
    | CellTypes.Value _ => acc
    | CellTypes.Bomb => (acc.1 + 1, acc.2)
    | CellTypes.Covered => (acc.1, acc.2 + 1)) (0, 0)

/-- The body of the rendering loop of `Board::compile_guaranteed` for one
coordinate, given the `found` flag accumulated so far: produces the
rendered character, the recorded safety probability (only recorded while no
guaranteed cell has been seen), and the updated flag.  The code's `f64`
probability `non_bomb / (non_bomb + bomb)` is modelled as an exact
rational. -/
def renderCell (base : Board) (poss : List Board) (ignore : List (Nat × Nat))
    (found : Bool) (x y : Nat) : Char × Rat × Bool :=
  let t := tallyAt poss x y
  if (t.1 = 0 ∧ t.2 = 0) ∨ (x, y) ∈ ignore ∨
      (0 < t.1 ∧ t.2 = 0 ∧ base.cellAt x y = CellTypes.Bomb) then
    ((base.cellAt x y).char, 0, found)
  else if 0 < t.1 ∧ t.2 = 0 then ('#', 0, true)
  else if t.1 = 0 ∧ 0 < t.2 then ('O', 0, true)
  else ('?', if found then 0 else (t.2 : Rat) / ((t.2 : Rat) + (t.1 : Rat)), found)

/-- One output row of the rendering loop, scanning `x` from 0 to the width
and threading the rendered characters, probabilities and `found` flag. -/
def compileRow (base : Board) (poss : List Board) (ignore : List (Nat × Nat))
    (y : Nat) (start : List Char × List Rat × Bool) : List Char × List Rat × Bool :=
  (List.range base.width).foldl (fun st x =>
    let r := renderCell base poss ignore st.2.2 x y
    (st.1 ++ [r.1], st.2.1 ++ [r.2.1], r.2.2)) start

/-- The state after the full rendering loop: the `output` character grid,
the `board_probabilities` grid and the `found` flag. -/
structure CompileState where
  output : List (List Char)
  probs : List (List Rat)
  found : Bool
deriving DecidableEq, Repr

/-- The full rendering loop of `Board::compile_guaranteed` (`y` outer,
`x` inner, i.e. row-major). -/
def compileGrid (base : Board) (poss : List Board) (ignore : List (Nat × Nat)) :
    CompileState :=
  (List.range base.height).foldl (fun st y =>
    let row := compileRow base poss ignore y ([], [], st.found)
    { output := st.output ++ [row.1], probs := st.probs ++ [row.2.1], found := row.2.2 })
    { output := [], probs := [], found := false }

/-- The maximum-probability scan of the no-guarantee branch: row-major, and
a later cell replaces the running maximum only when strictly larger, so the
first maximum in scan order wins ties. -/
def argmaxProb (probs : List (List Rat)) (width height : Nat) :
    Option (Rat × (Nat × Nat)) :=
  (List.range height).foldl (fun m y =>
    (List.range width).foldl (fun m x =>
      let p := (probs.getD y []).getD x 0
      match m with
      | none => some (p, (x, y))
      | some mv => if mv.1 < p then some (p, (x, y)) else m) m) none

/-- Writes one character of the rendered grid (`output[y][x] = '@'`). -/
def setChar (g : List (List Char)) (x y : Nat) (c : Char) : List (List Char) :=
  g.set y ((g.getD y []).set x c)

/-- The result of `Board::compile_guaranteed`, at the level the claims talk
about: the rendered character grid and, in the no-guarantee branch, the
marked coordinate with its exact safety probability.  The surrounding text
(legend, and the `{:.2}%` percentage formatting of the probability) is the
thin output shell around these values. -/
structure CompileResult where
  output : List (List Char)
  found : Bool
  mark : Option (Rat × (Nat × Nat))
deriving DecidableEq, Repr

/-- Mirrors `Board::compile_guaranteed`: render the grid; when a guaranteed
cell was found, emit the grid as is; otherwise find the row-major first
maximum of the probability grid, overwrite that cell with '@' and report it
together with its probability.  The code's `max.unwrap()` (which panics on
an empty grid, impossible for parsed boards) is modelled by `mark = none`. -/
def Board.compile_guaranteed (base : Board) (poss : List Board)
    (ignore : List (Nat × Nat)) : CompileResult :=
  let st := compileGrid base poss ignore
  if st.found then { output := st.output, found := true, mark := none }
  else
    match argmaxProb st.probs base.width base.height with
    | none => { output := st.output, found := false, mark := none }
    | some mv =>
      { output := setChar st.output mv.2.1 mv.2.2 '@', found := false, mark := some mv }

theorem Board.width_setCell (b : Board) (x y : Nat) (c : CellTypes) :
    (b.setCell x y c).width = b.width := rfl

theorem Board.height_setCell (b : Board) (x y : Nat) (c : CellTypes) :
    (b.setCell x y c).height = b.height := rfl

theorem list_getD_set_ne {α : Type} (l : List α) (i j : Nat) (a d : α) (h : i ≠ j) :
    (l.set i a).getD j d = l.getD j d := by
  simp [List.getD_eq_getElem?_getD, List.getElem?_set_ne h]

theorem list_getD_set_self {α : Type} (l : List α) (i : Nat) (a d : α) (h : i < l.length) :
    (l.set i a).getD i d = a := by
  simp [List.getD_eq_getElem?_getD, List.getElem?_set_self, h]

theorem Board.cellAt_setCell_ne (b : Board) {x y x' y' : Nat} (c : CellTypes)
    (h : (x', y') ≠ (x, y)) :
    (b.setCell x y c).cellAt x' y' = b.cellAt x' y' := by
  simp only [Board.setCell, Board.cellAt]
  by_cases hy : y' = y
  · subst hy
    have hx : x ≠ x' := fun hx => h (by rw [hx])
    by_cases hlen : y' < b.board.length
    · rw [list_getD_set_self _ _ _ _ hlen, list_getD_set_ne _ _ _ _ _ hx]
    · rw [List.set_eq_of_length_le (by omega)]
  · rw [list_getD_set_ne _ _ _ _ _ (fun hh => hy hh.symm)]

theorem Board.cellAt_setCell_self (b : Board) {x y : Nat} (c : CellTypes)
    (hy : y < b.board.length) (hx : x < (b.board.getD y []).length) :
    (b.setCell x y c).cellAt x y = c := by
  simp only [Board.setCell, Board.cellAt]
  rw [list_getD_set_self _ _ _ _ hy, list_getD_set_self _ _ _ _ hx]

theorem Board.getD_board_eq {b : Board} (hwf : b.WF) {y : Nat} (hy : y < b.height) :
    (b.board.getD y []).length = b.width := by
  obtain ⟨hl, hr⟩ := hwf
  have hylt : y < b.board.length := by omega
  rw [List.getD_eq_getElem?_getD, List.getElem?_eq_getElem hylt]
  exact hr _ (List.getElem_mem hylt)

theorem Board.WF.setCell {b : Board} (hwf : b.WF) (x y : Nat) (c : CellTypes) :
    (b.setCell x y c).WF := by
  by_cases hy : y < b.board.length
  · obtain ⟨hl, hr⟩ := hwf
    refine ⟨?_, ?_⟩
    · simp only [Board.setCell, List.length_set]
      exact hl
    · intro row hrow
      simp only [Board.setCell] at hrow
      rcases List.mem_or_eq_of_mem_set hrow with h | h
      · exact hr row h
      · subst h
        rw [List.length_set]
        exact Board.getD_board_eq ⟨hl, hr⟩ (by omega)
  · have : b.setCell x y c = b := by
      simp only [Board.setCell, List.set_eq_of_length_le (by omega : b.board.length ≤ y)]
    rw [this]
    exact hwf

theorem Board.cellAt_setCell_self_wf {b : Board} (hwf : b.WF) {x y : Nat} (c : CellTypes)
    (hx : x < b.width) (hy : y < b.height) :
    (b.setCell x y c).cellAt x y = c := by
  apply b.cellAt_setCell_self
  · have := hwf.1; omega
  · rw [Board.getD_board_eq hwf hy]; exact hx

theorem Board.mem_coords (b : Board) (p : Nat × Nat) :
    p ∈ b.coords ↔ p.1 < b.width ∧ p.2 < b.height := by
  unfold coords
  simp only [List.mem_flatMap, List.mem_map, List.mem_range]
  constructor
  · rintro ⟨x, hx, y, hy, rfl⟩
    exact ⟨hx, hy⟩
  · intro ⟨h1, h2⟩
    exact ⟨p.1, h1, p.2, h2, rfl⟩

theorem Board.coords_nodup (b : Board) : b.coords.Nodup := by
  unfold coords
  rw [List.nodup_flatMap]
  refine ⟨fun x _ => ?_, ?_⟩
  · exact (List.nodup_range _).map (fun a b h => (Prod.mk.injEq _ _ _ _).mp h |>.2)
  · exact (List.pairwise_lt_range _).imp (fun {a b} hab => by
      intro s hs ht
      simp only [List.mem_map, List.mem_range, Function.onFun] at hs ht
      obtain ⟨y1, _, rfl⟩ := hs
      obtain ⟨y2, _, he⟩ := ht
      exact absurd ((Prod.mk.injEq _ _ _ _).mp he).1 (by omega))

theorem checkCell_ok_iff (b : Board) (x y : Nat) (r : Nat) :
    b.checkCell x y = Except.ok r ↔ b.cellOk x y ∧ r = b.contribution x y := by
  unfold Board.checkCell Board.cellOk Board.contribution
  cases hcd : b.cellData x y with
  | none => simp [eq_comm]
  | some rs =>
    simp only
    split_ifs with h1 h2
    · constructor
      · intro h; exact h.elim
      · rintro ⟨hok, -⟩
        have := (hok rs rfl).1
        omega
    · constructor
      · intro h; exact h.elim
      · rintro ⟨hok, -⟩
        have := (hok rs rfl).2
        omega
    · constructor
      · intro h
        injection h with h
        refine ⟨fun rs' hrs' => ?_, h.symm⟩
        injection hrs' with hrs'
        subst hrs'
        omega
      · rintro ⟨-, rfl⟩
        rfl

theorem checkCell_error_iff (b : Board) (x y : Nat) :
    (∃ e, b.checkCell x y = Except.error e) ↔ ¬ b.cellOk x y := by
  constructor
  · rintro ⟨e, he⟩ hok
    rcases (checkCell_ok_iff b x y (b.contribution x y)).mpr ⟨hok, rfl⟩ with h
    rw [he] at h
    exact Except.noConfusion h
  · intro hok
    cases hc : b.checkCell x y with
    | error e => exact ⟨e, rfl⟩
    | ok r => exact absurd ((checkCell_ok_iff b x y r).mp hc).1 hok

theorem validateAux_ok_iff (b : Board) (L : List (Nat × Nat)) :
    ∀ (acc t : Nat),
      validateAux b L acc = Except.ok t ↔
        ((∀ p ∈ L, b.cellOk p.1 p.2) ∧
          t = acc + (L.map (fun p => b.contribution p.1 p.2)).sum) := by
  induction L with
  | nil => intro acc t; simp [validateAux, eq_comm]
  | cons p L ih =>
    intro acc t
    simp only [validateAux]
    cases hc : b.checkCell p.1 p.2 with
    | error e =>
      constructor
      · intro h; exact Except.noConfusion h
      · rintro ⟨hok, -⟩
        exact absurd (hok p (List.mem_cons_self p L))
          ((checkCell_error_iff b p.1 p.2).mp ⟨e, hc⟩)
    | ok r =>
      rw [ih]
      have hcr := (checkCell_ok_iff b p.1 p.2 r).mp hc
      constructor
      · rintro ⟨hall, rfl⟩
        refine ⟨fun q hq => ?_, ?_⟩
        · rcases List.mem_cons.mp hq with rfl | hq
          · exact hcr.1
          · exact hall q hq
        · rw [List.map_cons, List.sum_cons, ← hcr.2]
          omega
      · rintro ⟨hall, rfl⟩
        refine ⟨fun q hq => hall q (List.mem_cons_of_mem _ hq), ?_⟩
        rw [List.map_cons, List.sum_cons, ← hcr.2]
        omega

theorem validateAux_error_iff (b : Board) (L : List (Nat × Nat)) :
    ∀ (acc : Nat) (e : ValidateError),
      validateAux b L acc = Except.error e ↔
        ∃ L1 p L2, L = L1 ++ p :: L2 ∧ (∀ q ∈ L1, b.cellOk q.1 q.2) ∧
          b.checkCell p.1 p.2 = Except.error e := by
  induction L with
  | nil =>
    intro acc e
    simp [validateAux]
  | cons p0 L ih =>
    intro acc e
    simp only [validateAux]
    cases hc : b.checkCell p0.1 p0.2 with
    | error e0 =>
      constructor
      · intro h
        injection h with h
        subst h
        exact ⟨[], p0, L, rfl, by simp, hc⟩
      · rintro ⟨L1, p, L2, heq, hok1, hcp⟩
        cases L1 with
        | nil =>
          simp only [List.nil_append, List.cons.injEq] at heq
          obtain ⟨rfl, rfl⟩ := heq
          rw [hc] at hcp
          injection hcp with h
          rw [h]
        | cons q L1 =>
          simp only [List.cons_append, List.cons.injEq] at heq
          obtain ⟨rfl, -⟩ := heq
          exact absurd (hok1 p0 (List.mem_cons_self p0 L1))
            ((checkCell_error_iff b p0.1 p0.2).mp ⟨e0, hc⟩)
    | ok r =>
      rw [ih]
      constructor
      · rintro ⟨L1, p, L2, rfl, hok1, hcp⟩
        refine ⟨p0 :: L1, p, L2, rfl, fun q hq => ?_, hcp⟩
        rcases List.mem_cons.mp hq with rfl | hq
        · exact ((checkCell_ok_iff b q.1 q.2 r).mp hc).1
        · exact hok1 q hq
      · rintro ⟨L1, p, L2, heq, hok1, hcp⟩
        cases L1 with
        | nil =>
          simp only [List.nil_append, List.cons.injEq] at heq
          obtain ⟨rfl, rfl⟩ := heq
          rw [hc] at hcp
          exact Except.noConfusion hcp
        | cons q L1 =>
          simp only [List.cons_append, List.cons.injEq] at heq
          obtain ⟨rfl, rfl⟩ := heq
          exact ⟨L1, p, L2, rfl, fun q hq => hok1 _ (List.mem_cons_of_mem _ hq), hcp⟩

theorem validate_ok_iff (b : Board) (t : Nat) :
    b.validate_board = Except.ok t ↔
      ((∀ p ∈ b.coords, b.cellOk p.1 p.2) ∧ t = b.totalRequired) := by
  unfold Board.validate_board Board.totalRequired
  rw [validateAux_ok_iff]
  simp

theorem validate_error_iff (b : Board) (e : ValidateError) :
    b.validate_board = Except.error e ↔
      ∃ L1 p L2, b.coords = L1 ++ p :: L2 ∧ (∀ q ∈ L1, b.cellOk q.1 q.2) ∧
        b.checkCell p.1 p.2 = Except.error e := by
  unfold Board.validate_board
  rw [validateAux_error_iff]

instance instDecEqExcept {ε α : Type} [DecidableEq ε] [DecidableEq α] :
    DecidableEq (Except ε α) := fun x y =>
  match x, y with
  | Except.ok a, Except.ok b =>
    if h : a = b then isTrue (by rw [h])
    else isFalse (by intro hh; injection hh; contradiction)
  | Except.error a, Except.error b =>
    if h : a = b then isTrue (by rw [h])
    else isFalse (by intro hh; injection hh; contradiction)
  | Except.ok _, Except.error _ => isFalse (fun hh => Except.noConfusion hh)
  | Except.error _, Except.ok _ => isFalse (fun hh => Except.noConfusion hh)

/-- A board of the spec's validator example: a `Value 3` cell whose only
neighbours are 2 covered cells, with no bomb neighbours. -/
def exampleValue3 : Board :=
  { board := [[CellTypes.Covered, CellTypes.Value 3, CellTypes.Covered]],
    width := 3, height := 1 }

/-- A board with an unsatisfiable cell early in scan order and an
over-constrained cell later: `3 x 1 x` in one row.  Cell (0,0) has
`required = 2 > slack = 0`; cell (2,0) has `required = -1 < 0`. -/
def exampleMixedErrors : Board :=
  { board := [[CellTypes.Value 3, CellTypes.Bomb, CellTypes.Value 1, CellTypes.Bomb]],
    width := 4, height := 1 }

/-- C2 counterexample: on `exampleMixedErrors` a cell with `required < 0`
exists (cell (2,0), excess 1), yet the validator does not fail
`overConstrained` naming that cell: it stops first at cell (0,0), which is
merely unsatisfiable, because cells are scanned in order and the first
failing cell wins.  This refutes the claim's rule that `required < 0`
anywhere makes the validator fail naming that cell. -/
theorem claim2_counterexample :
    (∃ rs, exampleMixedErrors.cellData 2 0 = some rs ∧ rs.1 < 0) ∧
      exampleMixedErrors.validate_board =
        Except.error (ValidateError.unsatisfiable 0 0 2 0) := by
  constructor
  · refine ⟨((-1 : Int), 0), ?_, by decide⟩
    decide
  · decide

/-- C2 (amended): the Validator examines every numbered cell with value
`v > 0`, computing `required = v - bombNeighbours` and
`slack = coveredNeighbours`.  It succeeds exactly when every such cell has
`0 ≤ required ≤ slack`, returning the (never negative) sum of the positive
`required` values; otherwise it fails at the first offending cell in its
scan order (`x` outer, `y` inner), reporting `overConstrained` with the
excess `-required` when that cell has `required < 0` and `unsatisfiable`
with `required` and `slack` otherwise.  The `Value 3` cell with 2 covered
and no bomb neighbours fails `unsatisfiable` with required 3 and slack 2. -/
theorem claim2_validator_checks :
    (∀ (b : Board) (t : Nat),
      b.validate_board = Except.ok t ↔
        ((∀ p ∈ b.coords, b.cellOk p.1 p.2) ∧ t = b.totalRequired))
    ∧ (∀ (b : Board) (e : ValidateError), b.validate_board = Except.error e →
        ∃ L1 p L2 rs, b.coords = L1 ++ p :: L2 ∧
          (∀ q ∈ L1, b.cellOk q.1 q.2) ∧ b.cellData p.1 p.2 = some rs ∧
          ((rs.1 < 0 ∧ e = ValidateError.overConstrained p.1 p.2 (-rs.1)) ∨
            (0 ≤ rs.1 ∧ (rs.2 : Int) < rs.1 ∧
              e = ValidateError.unsatisfiable p.1 p.2 rs.1 rs.2)))
    ∧ exampleValue3.validate_board =
        Except.error (ValidateError.unsatisfiable 1 0 3 2) := by
  refine ⟨fun b t => validate_ok_iff b t, fun b e he => ?_, by decide⟩
  obtain ⟨L1, p, L2, hsplit, hok1, hchk⟩ := (validate_error_iff b e).mp he
  refine ⟨L1, p, L2, ?_⟩
  unfold Board.checkCell at hchk
  cases hcd : b.cellData p.1 p.2 with
  | none => rw [hcd] at hchk; exact Except.noConfusion hchk
  | some rs =>
    rw [hcd] at hchk
    simp only at hchk
    split_ifs at hchk with h1 h2
    · injection hchk with hh
      exact ⟨rs, hsplit, hok1, rfl, Or.inl ⟨h1, hh.symm⟩⟩
    · injection hchk with hh
      exact ⟨rs, hsplit, hok1, rfl, Or.inr ⟨by omega, h2, hh.symm⟩⟩

/-- C2 witness: the amended error rule applied to the concrete `Value 3`
example board. -/
theorem claim2_validator_checks_witness :
    ∃ L1 p L2 rs, exampleValue3.coords = L1 ++ p :: L2 ∧
      (∀ q ∈ L1, exampleValue3.cellOk q.1 q.2) ∧
      exampleValue3.cellData p.1 p.2 = some rs ∧
      ((rs.1 < 0 ∧
          ValidateError.unsatisfiable 1 0 3 2 =
            ValidateError.overConstrained p.1 p.2 (-rs.1)) ∨
        (0 ≤ rs.1 ∧ (rs.2 : Int) < rs.1 ∧
          ValidateError.unsatisfiable 1 0 3 2 =
            ValidateError.unsatisfiable p.1 p.2 rs.1 rs.2)) :=
  claim2_validator_checks.2.1 exampleValue3
    (ValidateError.unsatisfiable 1 0 3 2) (by decide)

/-- The spec's propagator example board: `? 0 ?` in one row. -/
def exampleRow0 : Board :=
  { board := [[CellTypes.Covered, CellTypes.Value 0, CellTypes.Covered]],
    width := 3, height := 1 }

/-- C3 counterexample: on `? 0 ?` a single propagator pass does not force
the neighbours of the `Value 0` cell and does not report a change: the
claim's asserted outcome (both neighbours become `Value 0` and
`change_made = true`) is false on this code. -/
theorem claim3_counterexample :
    ¬ ((Board.complete_solvable exampleRow0).1.cellAt 0 0 = CellTypes.Value 0 ∧
        (Board.complete_solvable exampleRow0).1.cellAt 2 0 = CellTypes.Value 0 ∧
        (Board.complete_solvable exampleRow0).2 = true) := by
  decide

/-- C3 (amended): on the 1x3 board `[Covered, Value 0, Covered]` a single
Propagator pass leaves the board unchanged and returns
`change_made = false`: the pass skips every cell whose value is 0
(`if required == 0 { continue; }` before the neighbour scan), so the
`Value 0` cell never forces its covered neighbours. -/
theorem claim3_propagator_skips_value0 :
    Board.complete_solvable exampleRow0 = (exampleRow0, false) := by
  decide

theorem Board.cellAt_setCell_cases (b : Board) (x y x' y' : Nat) (c : CellTypes) :
    (b.setCell x y c).cellAt x' y' = b.cellAt x' y' ∨
      (b.setCell x y c).cellAt x' y' = c := by
  by_cases h : (x', y') = (x, y)
  · obtain ⟨rfl, rfl⟩ := Prod.mk.injEq .. ▸ h
    by_cases hy : y' < b.board.length
    · by_cases hx : x' < (b.board.getD y' []).length
      · exact Or.inr (b.cellAt_setCell_self c hy hx)
      · left
        simp only [Board.setCell, Board.cellAt]
        rw [List.set_eq_of_length_le (le_of_not_lt hx), list_getD_set_self _ _ _ _ hy]
    · left
      simp only [Board.setCell, Board.cellAt]
      rw [List.set_eq_of_length_le (le_of_not_lt hy)]
  · exact Or.inl (b.cellAt_setCell_ne c h)

/-- Relates a working board to the original: every cell either still holds
its original value, or was `Covered` originally and now holds `Bomb` or
`Value 0` (the only two values the propagator writes). -/
def coveredOnlyChanged (b0 b : Board) : Prop :=
  ∀ x y, b.cellAt x y = b0.cellAt x y ∨
    (b0.cellAt x y = CellTypes.Covered ∧
      (b.cellAt x y = CellTypes.Bomb ∨ b.cellAt x y = CellTypes.Value 0))

theorem coveredOnlyChanged_refl (b : Board) : coveredOnlyChanged b b :=
  fun _ _ => Or.inl rfl

theorem covered_of_coveredOnlyChanged {b0 b : Board} (h : coveredOnlyChanged b0 b)
    {x y : Nat} (hcov : b.cellAt x y = CellTypes.Covered) :
    b0.cellAt x y = CellTypes.Covered := by
  rcases h x y with he | ⟨hc0, _⟩
  · rw [← he]; exact hcov
  · exact hc0

theorem coveredOnlyChanged_setCell {b0 b : Board} (h : coveredOnlyChanged b0 b)
    {q : Nat × Nat} (hq : b0.cellAt q.1 q.2 = CellTypes.Covered) {c : CellTypes}
    (hc : c = CellTypes.Bomb ∨ c = CellTypes.Value 0) :
    coveredOnlyChanged b0 (b.setCell q.1 q.2 c) := by
  intro x y
  by_cases hxy : (x, y) = (q.1, q.2)
  · rcases b.cellAt_setCell_cases q.1 q.2 x y c with he | he
    · rw [he]; exact h x y
    · rw [he]
      obtain ⟨h1, h2⟩ := Prod.mk.injEq .. ▸ hxy
      rw [h1, h2]
      exact Or.inr ⟨hq, hc⟩
  · rw [b.cellAt_setCell_ne c hxy]
    exact h x y

theorem coveredOnlyChanged_setFold (b0 : Board) (c : CellTypes)
    (hc : c = CellTypes.Bomb ∨ c = CellTypes.Value 0) :
    ∀ (L : List (Nat × Nat)) (b : Board), coveredOnlyChanged b0 b →
      (∀ q ∈ L, b0.cellAt q.1 q.2 = CellTypes.Covered) →
      coveredOnlyChanged b0 (L.foldl (fun bb q => bb.setCell q.1 q.2 c) b)
  | [], b, h, _ => h
  | q :: L, b, h, hcov => by
    simp only [List.foldl_cons]
    exact coveredOnlyChanged_setFold b0 c hc L _
      (coveredOnlyChanged_setCell h (hcov q (List.mem_cons_self q L)) hc)
      (fun q' hq' => hcov q' (List.mem_cons_of_mem _ hq'))

theorem coveredOnlyChanged_completeStep {b0 : Board} (s : Board × Bool)
    (p : Nat × Nat) (h : coveredOnlyChanged b0 s.1) :
    coveredOnlyChanged b0 (completeStep s p).1 := by
  unfold completeStep
  cases hcell : s.1.cellAt p.1 p.2 with
  | Value v =>
    simp only
    split_ifs with h0 hlen hreq
    · exact h
    · refine coveredOnlyChanged_setFold b0 _ (Or.inl rfl) _ _ h (fun q hq => ?_)
      refine covered_of_coveredOnlyChanged h ?_
      exact of_decide_eq_true (List.mem_filter.mp hq).2
    · refine coveredOnlyChanged_setFold b0 _ (Or.inr rfl) _ _ h (fun q hq => ?_)
      refine covered_of_coveredOnlyChanged h ?_
      exact of_decide_eq_true (List.mem_filter.mp hq).2
    · exact h
  | Covered => exact h
  | Bomb => exact h

theorem setFold_width (c : CellTypes) :
    ∀ (L : List (Nat × Nat)) (b : Board),
      (L.foldl (fun bb q => bb.setCell q.1 q.2 c) b).width = b.width ∧
      (L.foldl (fun bb q => bb.setCell q.1 q.2 c) b).height = b.height
  | [], _ => ⟨rfl, rfl⟩
  | q :: L, b => by
    simp only [List.foldl_cons]
    exact setFold_width c L _

theorem completeStep_width (s : Board × Bool) (p : Nat × Nat) :
    (completeStep s p).1.width = s.1.width ∧
    (completeStep s p).1.height = s.1.height := by
  unfold completeStep
  cases hcell : s.1.cellAt p.1 p.2 with
  | Value v =>
    simp only
    split_ifs with h0 hlen hreq
    · exact ⟨rfl, rfl⟩
    · exact setFold_width _ _ _
    · exact setFold_width _ _ _
    · exact ⟨rfl, rfl⟩
  | Covered => exact ⟨rfl, rfl⟩
  | Bomb => exact ⟨rfl, rfl⟩

theorem completeFold_frame (b0 : Board) :
    ∀ (L : List (Nat × Nat)) (s : Board × Bool), coveredOnlyChanged b0 s.1 →
      coveredOnlyChanged b0 (L.foldl completeStep s).1 ∧
      ((L.foldl completeStep s).1.width = s.1.width ∧
        (L.foldl completeStep s).1.height = s.1.height)
  | [], s, h => ⟨h, rfl, rfl⟩
  | p :: L, s, h => by
    simp only [List.foldl_cons]
    obtain ⟨h1, h2, h3⟩ := completeFold_frame b0 L (completeStep s p)
      (coveredOnlyChanged_completeStep s p h)
    obtain ⟨w1, w2⟩ := completeStep_width s p
    exact ⟨h1, by rw [h2, w1], by rw [h3, w2]⟩

/-- C9: a Propagator pass mutates only cells that were `Covered` before it,
writing only `Bomb` or `Value 0` into them: every cell holding `Value n` or
`Bomb` at the start holds the same value when the pass returns, and the
board's width and height are unchanged. -/
theorem claim9_propagator_frame (b : Board) :
    (Board.complete_solvable b).1.width = b.width ∧
    (Board.complete_solvable b).1.height = b.height ∧
    ∀ x y, (Board.complete_solvable b).1.cellAt x y = b.cellAt x y ∨
      (b.cellAt x y = CellTypes.Covered ∧
        ((Board.complete_solvable b).1.cellAt x y = CellTypes.Bomb ∨
          (Board.complete_solvable b).1.cellAt x y = CellTypes.Value 0)) := by
  obtain ⟨h1, h2, h3⟩ :=
    completeFold_frame b b.coords (b, false) (coveredOnlyChanged_refl b)
  exact ⟨h2, h3, h1⟩

theorem fromChar_char {c : Char} {t : CellTypes} (h : CellTypes.fromChar c = some t)
    (hX : c ≠ 'X') : t.char = c := by
  unfold CellTypes.fromChar at h
  split at h <;>
    first
      | exact Option.noConfusion h
      | (injection h with h2; subst h2; subst_vars;
         first
           | decide
           | exact absurd rfl hX)

theorem parseLine_ok_map :
    ∀ {l : List Char} {row : List CellTypes}, parseLine l = Except.ok row →
      (∀ c ∈ l, c ≠ 'X') → row.map CellTypes.char = l
  | [], row, h, _ => by
    injection h with h
    subst h
    rfl
  | c :: cs, row, h, hX => by
    unfold parseLine at h
    cases hfc : CellTypes.fromChar c with
    | none => rw [hfc] at h; exact Except.noConfusion h
    | some t =>
      rw [hfc] at h
      simp only at h
      cases hrest : parseLine cs with
      | error e => rw [hrest] at h; exact Except.noConfusion h
      | ok row0 =>
        rw [hrest] at h
        injection h with h
        subst h
        rw [List.map_cons,
          parseLine_ok_map hrest (fun c' hc' => hX c' (List.mem_cons_of_mem _ hc')),
          fromChar_char hfc (hX c (List.mem_cons_self c cs))]

theorem parseLine_error_iff :
    ∀ (l : List Char),
      (∃ e, parseLine l = Except.error e) ↔ ∃ c ∈ l, CellTypes.fromChar c = none
  | [] => by simp [parseLine]
  | c :: cs => by
    unfold parseLine
    cases hfc : CellTypes.fromChar c with
    | none =>
      simp only
      exact ⟨fun _ => ⟨c, List.mem_cons_self c cs, hfc⟩, fun _ => ⟨_, rfl⟩⟩
    | some t =>
      simp only
      cases hrest : parseLine cs with
      | error e =>
        constructor
        · intro
          have := (parseLine_error_iff cs).mp ⟨e, hrest⟩
          obtain ⟨c', hc', hn⟩ := this
          exact ⟨c', List.mem_cons_of_mem _ hc', hn⟩
        · intro
          exact ⟨e, rfl⟩
      | ok row =>
        constructor
        · rintro ⟨e, he⟩
          exact Except.noConfusion he
        · rintro ⟨c', hc', hn⟩
          rcases List.mem_cons.mp hc' with rfl | hc'
          · rw [hfc] at hn; exact Option.noConfusion hn
          · obtain ⟨e, he⟩ := (parseLine_error_iff cs).mpr ⟨c', hc', hn⟩
            rw [he] at hrest
            exact Except.noConfusion hrest

theorem parseLine_ok_of_isSome {l : List Char}
    (h : ∀ c ∈ l, (CellTypes.fromChar c).isSome) :
    ∃ row, parseLine l = Except.ok row := by
  cases hp : parseLine l with
  | ok row => exact ⟨row, rfl⟩
  | error e =>
    obtain ⟨c, hc, hn⟩ := (parseLine_error_iff l).mp ⟨e, hp⟩
    have hs := h c hc
    rw [hn] at hs
    exact absurd hs (by simp)

/-- Joins lines with single newline separators: the textual form the
rendering produces (one line per row, no trailing newline). -/
def joinLines : List (List Char) → List Char
  | [] => []
  | [l] => l
  | l :: ls => l ++ '\n' :: joinLines ls

theorem joinLines_cons_of_ne_nil (l : List Char) {ls : List (List Char)} (h : ls ≠ []) :
    joinLines (l :: ls) = l ++ '\n' :: joinLines ls := by
  cases ls with
  | nil => exact absurd rfl h
  | cons m ms => rfl

theorem joinLines_ne_nil {ls : List (List Char)} (hne : ls ≠ [])
    (hm : ∀ l ∈ ls, l ≠ []) : joinLines ls ≠ [] := by
  cases ls with
  | nil => exact absurd rfl hne
  | cons l ms =>
    cases ms with
    | nil => exact hm l (List.mem_cons_self l [])
    | cons m ms' =>
      rw [joinLines_cons_of_ne_nil l (by simp)]
      intro hcontra
      exact absurd (List.append_eq_nil.mp hcontra).2 (by simp)

theorem splitOnNl_cons (c : Char) (cs : List Char) :
    splitOnNl (c :: cs) =
      if c = '\n' then [] :: splitOnNl cs
      else (c :: (splitOnNl cs).headD []) :: (splitOnNl cs).tail := rfl

theorem splitOnNl_no_nl : ∀ {l : List Char}, '\n' ∉ l → splitOnNl l = [l]
  | [], _ => rfl
  | c :: cs, h => by
    rw [splitOnNl_cons,
      if_neg (fun hh => h (by rw [← hh]; exact List.mem_cons_self c cs)),
      splitOnNl_no_nl (fun hh => h (List.mem_cons_of_mem _ hh))]
    rfl

theorem splitOnNl_append_nl :
    ∀ {l : List Char}, '\n' ∉ l → ∀ (rest : List Char),
      splitOnNl (l ++ '\n' :: rest) = l :: splitOnNl rest
  | [], _, rest => by rw [List.nil_append, splitOnNl_cons, if_pos rfl]
  | c :: cs, h, rest => by
    rw [List.cons_append, splitOnNl_cons,
      if_neg (fun hh => h (by rw [← hh]; exact List.mem_cons_self c cs)),
      splitOnNl_append_nl (fun hh => h (List.mem_cons_of_mem _ hh)) rest]
    rfl

theorem splitOnNl_joinLines :
    ∀ {ls : List (List Char)}, ls ≠ [] → (∀ l ∈ ls, '\n' ∉ l) →
      splitOnNl (joinLines ls) = ls
  | [], hne, _ => absurd rfl hne
  | [l], _, hm => splitOnNl_no_nl (hm l (List.mem_cons_self l []))
  | l :: m :: ms, _, hm => by
    rw [joinLines_cons_of_ne_nil l (by simp),
      splitOnNl_append_nl (hm l (List.mem_cons_self l _)),
      splitOnNl_joinLines (by simp) (fun l' hl' => hm l' (List.mem_cons_of_mem _ hl'))]

theorem getLast?_joinLines :
    ∀ {ls : List (List Char)}, ls ≠ [] → (∀ l ∈ ls, l ≠ []) →
      ∃ lastl ∈ ls, (joinLines ls).getLast? = lastl.getLast?
  | [], hne, _ => absurd rfl hne
  | [l], _, _ => ⟨l, List.mem_cons_self l [], rfl⟩
  | l :: m :: ms, _, hm => by
    obtain ⟨lastl, hmem, hlast⟩ :=
      @getLast?_joinLines (m :: ms) (by simp)
        (fun l' hl' => hm l' (List.mem_cons_of_mem _ hl'))
    refine ⟨lastl, List.mem_cons_of_mem _ hmem, ?_⟩
    rw [joinLines_cons_of_ne_nil l (by simp), List.getLast?_append]
    have hj : joinLines (m :: ms) ≠ [] :=
      joinLines_ne_nil (by simp) (fun l' hl' => hm l' (List.mem_cons_of_mem _ hl'))
    have : ('\n' :: joinLines (m :: ms)).getLast? = (joinLines (m :: ms)).getLast? := by
      cases hcc : joinLines (m :: ms) with
      | nil => exact absurd hcc hj
      | cons d u => rfl
    rw [this, hlast]
    cases hcc : lastl.getLast? with
    | some a => rfl
    | none =>
      exfalso
      apply hm lastl (List.mem_cons_of_mem _ hmem)
      cases lastl with
      | nil => rfl
      | cons d u => simp [List.getLast?_concat] at hcc

theorem rustLines_joinLines {ls : List (List Char)} (hne : ls ≠ [])
    (hm : ∀ l ∈ ls, l ≠ [] ∧ '\n' ∉ l) : rustLines (joinLines ls) = ls := by
  unfold rustLines
  rw [if_neg (joinLines_ne_nil hne (fun l hl => (hm l hl).1))]
  have hlast : ¬ (joinLines ls).getLast? = some '\n' := by
    obtain ⟨lastl, hmem, hl⟩ := getLast?_joinLines hne (fun l hl => (hm l hl).1)
    rw [hl]
    intro hcontra
    exact absurd (List.mem_of_mem_getLast? hcontra) (hm lastl hmem).2
  rw [if_neg hlast]
  exact splitOnNl_joinLines hne (fun l hl => (hm l hl).2)

theorem parseLines_ok_all (W : Nat) :
    ∀ (ls : List (List Char)) (w : Option Nat) (acc : List (List CellTypes)),
      (w = none ∨ w = some W) →
      (∀ l ∈ ls, l.length = W ∧ 0 < l.length ∧ ∃ row, parseLine l = Except.ok row) →
      ∃ wout rows, parseLines ls w acc = Except.ok (wout, acc ++ rows) ∧
        List.Forall₂ (fun row l => parseLine l = Except.ok row) rows ls
  | [], w, acc, _, _ => ⟨w, [], by simp [parseLines], List.Forall₂.nil⟩
  | l :: ls, w, acc, hw, hl => by
    obtain ⟨hlen, hpos, row, hrow⟩ := hl l (List.mem_cons_self l ls)
    have hrest : ∀ l' ∈ ls, l'.length = W ∧ 0 < l'.length ∧
        ∃ row, parseLine l' = Except.ok row :=
      fun l' hl' => hl l' (List.mem_cons_of_mem _ hl')
    rcases hw with rfl | rfl
    · obtain ⟨wout, rows, hrec, hfa⟩ :=
        parseLines_ok_all W ls (some l.length) (acc ++ [row]) (Or.inr (by rw [hlen])) hrest
      refine ⟨wout, row :: rows, ?_, hfa.cons hrow⟩
      unfold parseLines
      rw [if_neg (by omega), hrow]
      exact hrec.trans (by simp)
    · obtain ⟨wout, rows, hrec, hfa⟩ :=
        parseLines_ok_all W ls (some W) (acc ++ [row]) (Or.inr rfl) hrest
      refine ⟨wout, row :: rows, ?_, hfa.cons hrow⟩
      unfold parseLines
      rw [if_neg (by omega), if_pos hlen.symm, hrow]
      exact hrec.trans (by simp)

theorem toStringFold :
    ∀ (rows : List (List CellTypes)) (acc : List Char),
      rows.foldl (fun acc row => acc ++ row.map CellTypes.char ++ ['\n']) acc =
        acc ++ (rows.map (fun row => row.map CellTypes.char ++ ['\n'])).flatten
  | [], acc => by simp
  | row :: rows, acc => by
    simp only [List.foldl_cons, List.map_cons, List.flatten_cons]
    rw [toStringFold rows (acc ++ row.map CellTypes.char ++ ['\n'])]
    simp [List.append_assoc]

theorem flatten_nl_dropLast :
    ∀ {ls : List (List Char)}, ls ≠ [] →
      ((ls.map (fun l => l ++ ['\n'])).flatten).dropLast = joinLines ls
  | [], hne => absurd rfl hne
  | [l], _ => by simp [joinLines, List.dropLast_concat]
  | l :: m :: ms, _ => by
    rw [List.map_cons, List.flatten_cons, joinLines_cons_of_ne_nil l (by simp)]
    have hne2 : ((m :: ms).map (fun l => l ++ ['\n'])).flatten ≠ [] := by
      simp only [List.map_cons, List.flatten_cons]
      intro hcontra
      exact absurd (List.append_eq_nil.mp (List.append_eq_nil.mp hcontra).1).2 (by simp)
    rw [List.dropLast_append_of_ne_nil _ hne2,
      @flatten_nl_dropLast (m :: ms) (by simp)]
    simp

theorem to_string_joinLines (b : Board) :
    b.board ≠ [] →
    b.to_string = joinLines (b.board.map (fun row => row.map CellTypes.char)) := by
  intro hne
  unfold Board.to_string
  rw [toStringFold, List.nil_append]
  have : b.board.map (fun row => row.map CellTypes.char ++ ['\n']) =
      ((b.board.map (fun row => row.map CellTypes.char)).map (fun l => l ++ ['\n'])) := by
    simp
  rw [this, flatten_nl_dropLast (by simpa using hne)]

theorem forall₂_parse_render :
    ∀ {rows : List (List CellTypes)} {ls : List (List Char)},
      List.Forall₂ (fun row l => parseLine l = Except.ok row) rows ls →
      (∀ l ∈ ls, ∀ c ∈ l, c ≠ 'X') →
      rows.map (fun row => row.map CellTypes.char) = ls := by
  intro rows ls hfa
  induction hfa with
  | nil => exact fun _ => rfl
  | cons hr hfa2 ih =>
    rename_i row l rows2 ls2
    intro hX
    rw [List.map_cons,
      parseLine_ok_map hr (fun c hc => hX l (List.mem_cons_self l ls2) c hc),
      ih (fun l' h' c hc => hX l' (List.mem_cons_of_mem _ h') c hc)]

/-- C6 counterexample input: `?`, a blank line, `?`.  It is well-formed in
the claim's sense (non-empty, both non-blank lines have length 1, every
character of every line is recognised and is not a bomb character), yet the
parse drops the blank line, so rendering the parsed board yields `?\n?`,
not the original text. -/
def exampleBlankText : List Char := ['?', '\n', '\n', '?']

/-- The board `exampleBlankText` parses to: two rows of one covered cell. -/
def exampleBlankBoard : Board :=
  { board := [[CellTypes.Covered], [CellTypes.Covered]], width := 1, height := 2 }

/-- C6 counterexample: the claim's well-formedness conditions hold for the
text `"?\n\n?"` (non-empty; every non-blank line has the first non-blank
line's length; every character of every line is recognised; no 'X' or 'x'),
yet `render(parse(text))` is `"?\n?"`, not the original text: parsing skips
blank lines, so the round trip is not the identity on such texts. -/
theorem claim6_counterexample :
    (exampleBlankText ≠ [] ∧
      (∀ l ∈ rustLines exampleBlankText, l.length = 0 ∨
        l.length = (((rustLines exampleBlankText).filter
          (fun l => l.length != 0)).headD []).length) ∧
      (∀ l ∈ rustLines exampleBlankText, ∀ c ∈ l,
        (CellTypes.fromChar c).isSome ∧ c ≠ 'X' ∧ c ≠ 'x')) ∧
    Board.from_string exampleBlankText = Except.ok exampleBlankBoard ∧
    exampleBlankBoard.to_string ≠ exampleBlankText := by
  refine ⟨⟨by decide, by decide, by decide⟩, by decide, by decide⟩

/-- C6 (amended): rendering is a left inverse of parsing on texts that are
a newline join of one or more non-blank lines of equal length whose
characters are all recognised and contain no bomb character: for such a
text, `from_string` succeeds and `to_string` of the parsed board reproduces
the text exactly (one line per row, single newline separators, no trailing
newline).  (Texts with blank lines are excluded: parsing skips them.) -/
theorem claim6_parse_render_roundtrip (ls : List (List Char)) (hne : ls ≠ [])
    (hl : ∀ l ∈ ls, l ≠ [] ∧ l.length = (ls.headD []).length ∧
      ∀ c ∈ l, (CellTypes.fromChar c).isSome ∧ c ≠ 'X' ∧ c ≠ 'x') :
    ∃ b, Board.from_string (joinLines ls) = Except.ok b ∧
      b.to_string = joinLines ls := by
  have hnl : ∀ l ∈ ls, '\n' ∉ l := by
    intro l hmem hcont
    have := ((hl l hmem).2.2 '\n' hcont).1
    simp [CellTypes.fromChar] at this
  have hrl : rustLines (joinLines ls) = ls :=
    rustLines_joinLines hne (fun l hmem => ⟨(hl l hmem).1, hnl l hmem⟩)
  obtain ⟨wout, rows, hpl, hfa⟩ :=
    parseLines_ok_all (ls.headD []).length ls none [] (Or.inl rfl)
      (fun l hmem => ⟨(hl l hmem).2.1,
        List.length_pos.mpr (hl l hmem).1,
        parseLine_ok_of_isSome (fun c hc => ((hl l hmem).2.2 c hc).1)⟩)
  have hrowsne : rows ≠ [] := by
    intro hcontra
    subst hcontra
    exact hne (List.length_eq_zero.mp hfa.length_eq.symm ▸ rfl)
  unfold Board.from_string
  rw [hrl, hpl]
  simp only [List.nil_append]
  rw [if_neg (by simpa using hrowsne)]
  refine ⟨_, rfl, ?_⟩
  rw [to_string_joinLines _ (by simpa using hrowsne)]
  rw [forall₂_parse_render hfa
    (fun l hmem c hc => ((hl l hmem).2.2 c hc).2.1)]

/-- C6 witness: the round trip applied to the concrete one-line text `?1?`. -/
theorem claim6_parse_render_roundtrip_witness :
    ∃ b, Board.from_string (joinLines [['?', '1', '?']]) = Except.ok b ∧
      b.to_string = joinLines [['?', '1', '?']] :=
  claim6_parse_render_roundtrip [['?', '1', '?']] (by decide) (by decide)

/-- The non-blank lines of the input, in order: the lines `from_string`
actually turns into rows. -/
def nonBlankLines (input : List Char) : List (List Char) :=
  (rustLines input).filter (fun l => l.length != 0)

theorem parseLines_error_iff_some (W : Nat) :
    ∀ (ls : List (List Char)) (acc : List (List CellTypes)),
      (∃ e, parseLines ls (some W) acc = Except.error e) ↔
        ∃ l ∈ ls, l.length ≠ 0 ∧
          (l.length ≠ W ∨ ∃ c ∈ l, CellTypes.fromChar c = none)
  | [], acc => by simp [parseLines]
  | l :: ls, acc => by
    by_cases h0 : l.length = 0
    · rw [show parseLines (l :: ls) (some W) acc = parseLines ls (some W) acc by
        simp only [parseLines]; rw [if_pos h0]]
      rw [parseLines_error_iff_some W ls acc]
      constructor
      · rintro ⟨l', hl', hrest⟩
        exact ⟨l', List.mem_cons_of_mem _ hl', hrest⟩
      · rintro ⟨l', hl', hne, hrest⟩
        rcases List.mem_cons.mp hl' with rfl | hl'
        · exact absurd h0 hne
        · exact ⟨l', hl', hne, hrest⟩
    · by_cases hW : W = l.length
      · cases hpl : parseLine l with
        | error e =>
          rw [show parseLines (l :: ls) (some W) acc = Except.error e by
            simp only [parseLines]; rw [if_neg h0, if_pos hW, hpl]]
          constructor
          · intro
            obtain ⟨c, hc, hn⟩ := (parseLine_error_iff l).mp ⟨e, hpl⟩
            exact ⟨l, List.mem_cons_self l ls, h0, Or.inr ⟨c, hc, hn⟩⟩
          · intro
            exact ⟨e, rfl⟩
        | ok row =>
          rw [show parseLines (l :: ls) (some W) acc =
              parseLines ls (some W) (acc ++ [row]) by
            simp only [parseLines]; rw [if_neg h0, if_pos hW, hpl]]
          rw [parseLines_error_iff_some W ls (acc ++ [row])]
          constructor
          · rintro ⟨l', hl', hrest⟩
            exact ⟨l', List.mem_cons_of_mem _ hl', hrest⟩
          · rintro ⟨l', hl', hne, hbad⟩
            rcases List.mem_cons.mp hl' with rfl | hl'
            · rcases hbad with hlen | ⟨c, hc, hn⟩
              · exact absurd hW.symm hlen
              · obtain ⟨e, he⟩ := (parseLine_error_iff l').mpr ⟨c, hc, hn⟩
                rw [he] at hpl
                exact Except.noConfusion hpl
            · exact ⟨l', hl', hne, hbad⟩
      · rw [show parseLines (l :: ls) (some W) acc =
            Except.error (ParseError.irregular W l.length) by
          simp only [parseLines]; rw [if_neg h0, if_neg hW]]
        constructor
        · intro
          exact ⟨l, List.mem_cons_self l ls, h0, Or.inl (fun hh => hW hh.symm)⟩
        · intro
          exact ⟨ParseError.irregular W l.length, rfl⟩

theorem parseLines_error_iff_none :
    ∀ (ls : List (List Char)) (acc : List (List CellTypes)),
      (∃ e, parseLines ls none acc = Except.error e) ↔
        ∃ l ∈ ls, l.length ≠ 0 ∧
          (l.length ≠ ((ls.filter (fun l => l.length != 0)).headD []).length ∨
            ∃ c ∈ l, CellTypes.fromChar c = none)
  | [], acc => by simp [parseLines]
  | l :: ls, acc => by
    by_cases h0 : l.length = 0
    · rw [show parseLines (l :: ls) none acc = parseLines ls none acc by
        simp only [parseLines]; rw [if_pos h0]]
      rw [parseLines_error_iff_none ls acc]
      have hfil : (l :: ls).filter (fun l => l.length != 0) =
          ls.filter (fun l => l.length != 0) := by
        rw [List.filter_cons]
        simp [h0]
      rw [hfil]
      constructor
      · rintro ⟨l', hl', hrest⟩
        exact ⟨l', List.mem_cons_of_mem _ hl', hrest⟩
      · rintro ⟨l', hl', hne, hrest⟩
        rcases List.mem_cons.mp hl' with rfl | hl'
        · exact absurd h0 hne
        · exact ⟨l', hl', hne, hrest⟩
    · have hfil : (l :: ls).filter (fun l => l.length != 0) =
          l :: ls.filter (fun l => l.length != 0) := by
        rw [List.filter_cons]
        simp [h0]
      rw [hfil]
      simp only [List.headD_cons]
      cases hpl : parseLine l with
      | error e =>
        rw [show parseLines (l :: ls) none acc = Except.error e by
          simp only [parseLines]; rw [if_neg h0, hpl]]
        constructor
        · intro
          obtain ⟨c, hc, hn⟩ := (parseLine_error_iff l).mp ⟨e, hpl⟩
          exact ⟨l, List.mem_cons_self l ls, h0, Or.inr ⟨c, hc, hn⟩⟩
        · intro
          exact ⟨e, rfl⟩
      | ok row =>
        rw [show parseLines (l :: ls) none acc =
            parseLines ls (some l.length) (acc ++ [row]) by
          simp only [parseLines]; rw [if_neg h0, hpl]]
        rw [parseLines_error_iff_some l.length ls (acc ++ [row])]
        constructor
        · rintro ⟨l', hl', hrest⟩
          exact ⟨l', List.mem_cons_of_mem _ hl', hrest⟩
        · rintro ⟨l', hl', hne, hbad⟩
          rcases List.mem_cons.mp hl' with rfl | hl'
          · rcases hbad with hlen | ⟨c, hc, hn⟩
            · exact absurd rfl hlen
            · obtain ⟨e, he⟩ := (parseLine_error_iff l').mpr ⟨c, hc, hn⟩
              rw [he] at hpl
              exact Except.noConfusion hpl
          · exact ⟨l', hl', hne, hbad⟩

theorem parseLines_ok_rows_len :
    ∀ (ls : List (List Char)) (w : Option Nat) (acc : List (List CellTypes))
      (w2 : Option Nat) (rows : List (List CellTypes)),
      parseLines ls w acc = Except.ok (w2, rows) →
      rows.length = acc.length + ls.countP (fun l => l.length != 0)
  | [], w, acc, w2, rows, h => by
    unfold parseLines at h
    injection h with h
    have h2 : acc = rows := (Prod.mk.injEq .. ▸ h).2
    rw [← h2]
    simp
  | l :: ls, w, acc, w2, rows, h => by
    have hcp0 : l.length = 0 →
        (l :: ls).countP (fun l => l.length != 0) =
          ls.countP (fun l => l.length != 0) := by
      intro h0
      rw [List.countP_cons]
      simp [h0]
    have hcp1 : l.length ≠ 0 →
        (l :: ls).countP (fun l => l.length != 0) =
          ls.countP (fun l => l.length != 0) + 1 := by
      intro h0
      rw [List.countP_cons]
      simp [h0]
    cases w with
    | none =>
      unfold parseLines at h
      by_cases h0 : l.length = 0
      · rw [if_pos h0] at h
        rw [hcp0 h0]
        exact parseLines_ok_rows_len ls none acc w2 rows h
      · rw [if_neg h0] at h
        cases hpl : parseLine l with
        | error e => rw [hpl] at h; exact Except.noConfusion h
        | ok row =>
          rw [hpl] at h
          have := parseLines_ok_rows_len ls (some l.length) (acc ++ [row]) w2 rows h
          rw [hcp1 h0, this]
          simp
          omega
    | some wv =>
      unfold parseLines at h
      by_cases h0 : l.length = 0
      · rw [if_pos h0] at h
        rw [hcp0 h0]
        exact parseLines_ok_rows_len ls (some wv) acc w2 rows h
      · rw [if_neg h0] at h
        by_cases hW : wv = l.length
        · rw [if_pos hW] at h
          cases hpl : parseLine l with
          | error e => rw [hpl] at h; exact Except.noConfusion h
          | ok row =>
            rw [hpl] at h
            have := parseLines_ok_rows_len ls (some wv) (acc ++ [row]) w2 rows h
            rw [hcp1 h0, this]
            simp
            omega
        · rw [if_neg hW] at h
          exact Except.noConfusion h

theorem from_string_error_iff (input : List Char) :
    (∃ e, Board.from_string input = Except.error e) ↔
      (nonBlankLines input = [] ∨
        ∃ l ∈ nonBlankLines input,
          l.length ≠ ((nonBlankLines input).headD []).length ∨
            ∃ c ∈ l, CellTypes.fromChar c = none) := by
  unfold Board.from_string
  have hbridge : (∃ l ∈ rustLines input, l.length ≠ 0 ∧
      (l.length ≠ (((rustLines input).filter (fun l => l.length != 0)).headD []).length ∨
        ∃ c ∈ l, CellTypes.fromChar c = none)) ↔
      (∃ l ∈ nonBlankLines input,
        l.length ≠ ((nonBlankLines input).headD []).length ∨
          ∃ c ∈ l, CellTypes.fromChar c = none) := by
    unfold nonBlankLines
    constructor
    · rintro ⟨l, hl, hne, hP⟩
      exact ⟨l, List.mem_filter.mpr ⟨hl, by simpa using hne⟩, hP⟩
    · rintro ⟨l, hl, hP⟩
      obtain ⟨hl1, hl2⟩ := List.mem_filter.mp hl
      exact ⟨l, hl1, by simpa using hl2, hP⟩
  cases hpl : parseLines (rustLines input) none [] with
  | error e =>
    simp only
    constructor
    · intro
      exact Or.inr (hbridge.mp
        ((parseLines_error_iff_none (rustLines input) []).mp ⟨e, hpl⟩))
    · intro
      exact ⟨e, rfl⟩
  | ok wr =>
    obtain ⟨w2, rows⟩ := wr
    simp only
    have hlen := parseLines_ok_rows_len _ _ _ _ _ hpl
    simp only [List.length_nil, Nat.zero_add] at hlen
    by_cases hrows : rows.length = 0
    · rw [if_pos hrows]
      constructor
      · intro
        left
        unfold nonBlankLines
        have hcp : (rustLines input).countP (fun l => l.length != 0) = 0 := by omega
        rwa [List.countP_eq_length_filter, List.length_eq_zero] at hcp
      · intro
        exact ⟨ParseError.emptyInput, rfl⟩
    · rw [if_neg hrows]
      constructor
      · rintro ⟨e, he⟩
        exact Except.noConfusion he
      · intro hcases
        exfalso
        rcases hcases with hempty | hbad
        · unfold nonBlankLines at hempty
          have hcp : (rustLines input).countP (fun l => l.length != 0) = 0 := by
            rw [List.countP_eq_length_filter, hempty]
            rfl
          omega
        · obtain ⟨e, he⟩ := (parseLines_error_iff_none (rustLines input) []).mpr
            (hbridge.mpr hbad)
          rw [he] at hpl
          exact Except.noConfusion hpl

/-- C8 example input: a line of length 3 followed by a line of length 4. -/
def exampleIrregular : List Char := ['?', '?', '?', '\n', '?', '?', '?', '?']

/-- C8: parsing fails exactly when the input has no non-blank line
(empty-input error), or some non-blank line's length differs from the first
non-blank line's length, or some non-blank line contains an unrecognised
character; blank lines are skipped (only non-blank lines appear in the
conditions), and on any other input parsing succeeds.  A line of length 3
followed by one of length 4 yields the irregular-width error naming
expected 3 and found 4. -/
theorem claim8_parse_error_conditions :
    (∀ input : List Char,
      (∃ e, Board.from_string input = Except.error e) ↔
        (nonBlankLines input = [] ∨
          ∃ l ∈ nonBlankLines input,
            l.length ≠ ((nonBlankLines input).headD []).length ∨
              ∃ c ∈ l, CellTypes.fromChar c = none))
    ∧ Board.from_string exampleIrregular =
        Except.error (ParseError.irregular 3 4) :=
  ⟨from_string_error_iff, by decide⟩

/-- C8 witness: the error characterisation applied to the concrete input
`"?\n\n?"` (which parses successfully, so both sides are false) follows
from the claim theorem at that input. -/
theorem claim8_parse_error_conditions_witness :
    (∃ e, Board.from_string exampleBlankText = Except.error e) ↔
      (nonBlankLines exampleBlankText = [] ∨
        ∃ l ∈ nonBlankLines exampleBlankText,
          l.length ≠ ((nonBlankLines exampleBlankText).headD []).length ∨
            ∃ c ∈ l, CellTypes.fromChar c = none) :=
  claim8_parse_error_conditions.1 exampleBlankText

/-- The candidate board the search builds at one coordinate: a copy of the
board with that coordinate set to `Bomb`. -/
def candidate (B : Board) (p : Nat × Nat) : Board :=
  B.setCell p.1 p.2 CellTypes.Bomb

/-- Full case analysis of one step of the candidate loop: either the
coordinate is skipped (ignored, not covered, or hash already visited) and
the state is unchanged, or the candidate is fresh and the step is exactly
one of the four classification outcomes. -/
theorem possibleStep_spec (B : Board) (t : Nat) (s : SearchState) (p : Nat × Nat) :
    (B.possibleStep t s p = s ∧
      (p ∈ s.ignore ∨ B.cellAt p.1 p.2 ≠ CellTypes.Covered ∨
        (candidate B p).get_hash ∈ s.visited)) ∨
    (p ∉ s.ignore ∧ B.cellAt p.1 p.2 = CellTypes.Covered ∧
      (candidate B p).get_hash ∉ s.visited ∧
      (((candidate B p).validate_board = Except.ok 0 ∧
          B.possibleStep t s p = { s with
            visited := (candidate B p).get_hash :: s.visited,
            solved := s.solved ++ [candidate B p] }) ∨
        (∃ r, (candidate B p).validate_board = Except.ok r ∧ r ≠ 0 ∧ r = t ∧
          B.possibleStep t s p = { s with
            visited := (candidate B p).get_hash :: s.visited,
            ignore := p :: s.ignore }) ∨
        (∃ r, (candidate B p).validate_board = Except.ok r ∧ r ≠ 0 ∧ r ≠ t ∧
          B.possibleStep t s p = { s with
            visited := (candidate B p).get_hash :: s.visited,
            openBoards := s.openBoards ++ [candidate B p] }) ∨
        (∃ e, (candidate B p).validate_board = Except.error e ∧
          B.possibleStep t s p = { s with
            visited := (candidate B p).get_hash :: s.visited }))) := by
  unfold Board.possibleStep candidate
  by_cases hig : p ∈ s.ignore
  · rw [if_pos hig]
    exact Or.inl ⟨rfl, Or.inl hig⟩
  · rw [if_neg hig]
    cases hc : B.cellAt p.1 p.2 with
    | Covered =>
      simp only
      by_cases hv : (B.setCell p.1 p.2 CellTypes.Bomb).get_hash ∈ s.visited
      · rw [if_pos hv]
        exact Or.inl ⟨rfl, Or.inr (Or.inr hv)⟩
      · rw [if_neg hv]
        refine Or.inr ⟨hig, by trivial, hv, ?_⟩
        cases hval : (B.setCell p.1 p.2 CellTypes.Bomb).validate_board with
        | ok r =>
          simp only
          by_cases hr0 : r = 0
          · rw [if_pos hr0]
            subst hr0
            exact Or.inl ⟨by trivial, by trivial⟩
          · rw [if_neg hr0]
            by_cases hrt : r = t
            · rw [if_pos hrt]
              exact Or.inr (Or.inl ⟨r, by trivial, hr0, hrt, by trivial⟩)
            · rw [if_neg hrt]
              exact Or.inr (Or.inr (Or.inl ⟨r, by trivial, hr0, hrt, by trivial⟩))
        | error e =>
          simp only
          exact Or.inr (Or.inr (Or.inr ⟨e, by trivial, by trivial⟩))
    | Bomb => exact Or.inl ⟨rfl, Or.inr (Or.inl (fun hh => CellTypes.noConfusion hh))⟩
    | Value v => exact Or.inl ⟨rfl, Or.inr (Or.inl (fun hh => CellTypes.noConfusion hh))⟩

theorem possibleStep_ignore_mono (B : Board) (t : Nat) (s : SearchState)
    (p a : Nat × Nat) (ha : a ∈ s.ignore) : a ∈ (B.possibleStep t s p).ignore := by
  rcases possibleStep_spec B t s p with ⟨heq, -⟩ | ⟨-, -, -, hcl⟩
  · rw [heq]; exact ha
  · rcases hcl with ⟨-, heq⟩ | ⟨r, -, -, -, heq⟩ | ⟨r, -, -, -, heq⟩ | ⟨e, -, heq⟩ <;>
      rw [heq] <;> first | exact ha | exact List.mem_cons_of_mem _ ha

theorem possibleStep_ignore_sub (B : Board) (t : Nat) (s : SearchState)
    (p a : Nat × Nat) (ha : a ∈ (B.possibleStep t s p).ignore) :
    a ∈ s.ignore ∨ a = p := by
  rcases possibleStep_spec B t s p with ⟨heq, -⟩ | ⟨-, -, -, hcl⟩
  · rw [heq] at ha; exact Or.inl ha
  · rcases hcl with ⟨-, heq⟩ | ⟨r, -, -, -, heq⟩ | ⟨r, -, -, -, heq⟩ | ⟨e, -, heq⟩ <;>
      rw [heq] at ha
    · exact Or.inl ha
    · rcases List.mem_cons.mp ha with rfl | ha
      · exact Or.inr rfl
      · exact Or.inl ha
    · exact Or.inl ha
    · exact Or.inl ha

theorem possibleStep_visited_mono (B : Board) (t : Nat) (s : SearchState)
    (p : Nat × Nat) (v : List (List Nat)) (hv : v ∈ s.visited) :
    v ∈ (B.possibleStep t s p).visited := by
  rcases possibleStep_spec B t s p with ⟨heq, -⟩ | ⟨-, -, -, hcl⟩
  · rw [heq]; exact hv
  · rcases hcl with ⟨-, heq⟩ | ⟨r, -, -, -, heq⟩ | ⟨r, -, -, -, heq⟩ | ⟨e, -, heq⟩ <;>
      rw [heq] <;> exact List.mem_cons_of_mem _ hv

theorem possibleStep_visited_sub (B : Board) (t : Nat) (s : SearchState)
    (p : Nat × Nat) (v : List (List Nat)) (hv : v ∈ (B.possibleStep t s p).visited) :
    v ∈ s.visited ∨
      (v = (candidate B p).get_hash ∧ B.cellAt p.1 p.2 = CellTypes.Covered) := by
  rcases possibleStep_spec B t s p with ⟨heq, -⟩ | ⟨-, hcov, -, hcl⟩
  · rw [heq] at hv; exact Or.inl hv
  · rcases hcl with ⟨-, heq⟩ | ⟨r, -, -, -, heq⟩ | ⟨r, -, -, -, heq⟩ | ⟨e, -, heq⟩ <;>
      rw [heq] at hv <;>
      · rcases List.mem_cons.mp hv with rfl | hv
        · exact Or.inr ⟨rfl, hcov⟩
        · exact Or.inl hv

theorem possibleStep_solved_mono (B : Board) (t : Nat) (s : SearchState)
    (p : Nat × Nat) (ob : Board) (hob : ob ∈ s.solved) :
    ob ∈ (B.possibleStep t s p).solved := by
  rcases possibleStep_spec B t s p with ⟨heq, -⟩ | ⟨-, -, -, hcl⟩
  · rw [heq]; exact hob
  · rcases hcl with ⟨-, heq⟩ | ⟨r, -, -, -, heq⟩ | ⟨r, -, -, -, heq⟩ | ⟨e, -, heq⟩ <;>
      rw [heq] <;> first | exact hob | exact List.mem_append_left _ hob

theorem possibleStep_solved_sub (B : Board) (t : Nat) (s : SearchState)
    (p : Nat × Nat) (ob : Board) (hob : ob ∈ (B.possibleStep t s p).solved) :
    ob ∈ s.solved ∨
      (ob = candidate B p ∧ B.cellAt p.1 p.2 = CellTypes.Covered ∧
        p ∉ s.ignore ∧ (candidate B p).get_hash ∉ s.visited ∧
        (candidate B p).validate_board = Except.ok 0) := by
  rcases possibleStep_spec B t s p with ⟨heq, -⟩ | ⟨hig, hcov, hv, hcl⟩
  · rw [heq] at hob; exact Or.inl hob
  · rcases hcl with ⟨hok, heq⟩ | ⟨r, -, -, -, heq⟩ | ⟨r, -, -, -, heq⟩ | ⟨e, -, heq⟩ <;>
      rw [heq] at hob
    · rcases List.mem_append.mp hob with hob | hob
      · exact Or.inl hob
      · rcases List.mem_singleton.mp hob with rfl
        exact Or.inr ⟨rfl, hcov, hig, hv, hok⟩
    · exact Or.inl hob
    · exact Or.inl hob
    · exact Or.inl hob

theorem possibleStep_open_mono (B : Board) (t : Nat) (s : SearchState)
    (p : Nat × Nat) (ob : Board) (hob : ob ∈ s.openBoards) :
    ob ∈ (B.possibleStep t s p).openBoards := by
  rcases possibleStep_spec B t s p with ⟨heq, -⟩ | ⟨-, -, -, hcl⟩
  · rw [heq]; exact hob
  · rcases hcl with ⟨-, heq⟩ | ⟨r, -, -, -, heq⟩ | ⟨r, -, -, -, heq⟩ | ⟨e, -, heq⟩ <;>
      rw [heq] <;> first | exact hob | exact List.mem_append_left _ hob

theorem possibleStep_open_sub (B : Board) (t : Nat) (s : SearchState)
    (p : Nat × Nat) (ob : Board) (hob : ob ∈ (B.possibleStep t s p).openBoards) :
    ob ∈ s.openBoards ∨
      (ob = candidate B p ∧ B.cellAt p.1 p.2 = CellTypes.Covered ∧
        p ∉ s.ignore ∧ (candidate B p).get_hash ∉ s.visited ∧
        (∃ r, (candidate B p).validate_board = Except.ok r ∧ r ≠ 0 ∧ r ≠ t) ∧
        (B.possibleStep t s p).ignore = s.ignore) := by
  rcases possibleStep_spec B t s p with ⟨heq, -⟩ | ⟨hig, hcov, hv, hcl⟩
  · rw [heq] at hob; exact Or.inl hob
  · rcases hcl with ⟨-, heq⟩ | ⟨r, -, -, -, heq⟩ | ⟨r, hok, hr0, hrt, heq⟩ | ⟨e, -, heq⟩ <;>
      rw [heq] at hob ⊢
    · exact Or.inl hob
    · exact Or.inl hob
    · rcases List.mem_append.mp hob with hob | hob
      · exact Or.inl hob
      · rcases List.mem_singleton.mp hob with rfl
        exact Or.inr ⟨rfl, hcov, hig, hv, ⟨r, hok, hr0, hrt⟩, rfl⟩
    · exact Or.inl hob

theorem possibleStep_open_length (B : Board) (t : Nat) (s : SearchState)
    (p : Nat × Nat) :
    (B.possibleStep t s p).openBoards.length ≤ s.openBoards.length +
      (if B.cellAt p.1 p.2 = CellTypes.Covered then 1 else 0) := by
  rcases possibleStep_spec B t s p with ⟨heq, -⟩ | ⟨-, hcov, -, hcl⟩
  · rw [heq]; omega
  · rw [if_pos hcov]
    rcases hcl with ⟨-, heq⟩ | ⟨r, -, -, -, heq⟩ | ⟨r, -, -, -, heq⟩ | ⟨e, -, heq⟩ <;>
      rw [heq] <;> simp <;> omega

theorem stepFold_ignore_mono (B : Board) (t : Nat) :
    ∀ (L : List (Nat × Nat)) (s : SearchState) (a : Nat × Nat), a ∈ s.ignore →
      a ∈ (L.foldl (B.possibleStep t) s).ignore
  | [], _, _, ha => ha
  | q :: L, s, a, ha => by
    simp only [List.foldl_cons]
    exact stepFold_ignore_mono B t L _ a (possibleStep_ignore_mono B t s q a ha)

theorem stepFold_ignore_sub (B : Board) (t : Nat) :
    ∀ (L : List (Nat × Nat)) (s : SearchState) (a : Nat × Nat),
      a ∈ (L.foldl (B.possibleStep t) s).ignore → a ∈ s.ignore ∨ a ∈ L
  | [], _, _, ha => Or.inl ha
  | q :: L, s, a, ha => by
    simp only [List.foldl_cons] at ha
    rcases stepFold_ignore_sub B t L _ a ha with h | h
    · rcases possibleStep_ignore_sub B t s q a h with h2 | rfl
      · exact Or.inl h2
      · exact Or.inr (List.mem_cons_self a L)
    · exact Or.inr (List.mem_cons_of_mem _ h)

theorem stepFold_visited_mono (B : Board) (t : Nat) :
    ∀ (L : List (Nat × Nat)) (s : SearchState) (v : List (List Nat)), v ∈ s.visited →
      v ∈ (L.foldl (B.possibleStep t) s).visited
  | [], _, _, hv => hv
  | q :: L, s, v, hv => by
    simp only [List.foldl_cons]
    exact stepFold_visited_mono B t L _ v (possibleStep_visited_mono B t s q v hv)

theorem stepFold_visited_sub (B : Board) (t : Nat) :
    ∀ (L : List (Nat × Nat)) (s : SearchState) (v : List (List Nat)),
      v ∈ (L.foldl (B.possibleStep t) s).visited →
      v ∈ s.visited ∨ ∃ p ∈ L, v = (candidate B p).get_hash ∧
        B.cellAt p.1 p.2 = CellTypes.Covered
  | [], _, _, hv => Or.inl hv
  | q :: L, s, v, hv => by
    simp only [List.foldl_cons] at hv
    rcases stepFold_visited_sub B t L _ v hv with h | ⟨p, hp, he, hcov⟩
    · rcases possibleStep_visited_sub B t s q v h with h2 | ⟨he, hcov⟩
      · exact Or.inl h2
      · exact Or.inr ⟨q, List.mem_cons_self q L, he, hcov⟩
    · exact Or.inr ⟨p, List.mem_cons_of_mem _ hp, he, hcov⟩

theorem stepFold_solved_mono (B : Board) (t : Nat) :
    ∀ (L : List (Nat × Nat)) (s : SearchState) (ob : Board), ob ∈ s.solved →
      ob ∈ (L.foldl (B.possibleStep t) s).solved
  | [], _, _, hs => hs
  | q :: L, s, ob, hs => by
    simp only [List.foldl_cons]
    exact stepFold_solved_mono B t L _ ob (possibleStep_solved_mono B t s q ob hs)

theorem stepFold_solved_sub (B : Board) (t : Nat) :
    ∀ (L : List (Nat × Nat)) (s : SearchState) (ob : Board),
      ob ∈ (L.foldl (B.possibleStep t) s).solved →
      ob ∈ s.solved ∨ ∃ p ∈ L, B.cellAt p.1 p.2 = CellTypes.Covered ∧
        ob = candidate B p ∧ (candidate B p).validate_board = Except.ok 0
  | [], _, _, hs => Or.inl hs
  | q :: L, s, ob, hs => by
    simp only [List.foldl_cons] at hs
    rcases stepFold_solved_sub B t L _ ob hs with h | ⟨p, hp, hcov, he, hok⟩
    · rcases possibleStep_solved_sub B t s q ob h with h2 | ⟨he, hcov, -, -, hok⟩
      · exact Or.inl h2
      · exact Or.inr ⟨q, List.mem_cons_self q L, hcov, he, hok⟩
    · exact Or.inr ⟨p, List.mem_cons_of_mem _ hp, hcov, he, hok⟩

theorem stepFold_open_mono (B : Board) (t : Nat) :
    ∀ (L : List (Nat × Nat)) (s : SearchState) (ob : Board), ob ∈ s.openBoards →
      ob ∈ (L.foldl (B.possibleStep t) s).openBoards
  | [], _, _, ho => ho
  | q :: L, s, ob, ho => by
    simp only [List.foldl_cons]
    exact stepFold_open_mono B t L _ ob (possibleStep_open_mono B t s q ob ho)

theorem stepFold_open_sub (B : Board) (t : Nat) :
    ∀ (L : List (Nat × Nat)) (s : SearchState), L.Nodup → ∀ ob : Board,
      ob ∈ (L.foldl (B.possibleStep t) s).openBoards →
      ob ∈ s.openBoards ∨ ∃ p ∈ L, B.cellAt p.1 p.2 = CellTypes.Covered ∧
        ob = candidate B p ∧
        (∃ r, (candidate B p).validate_board = Except.ok r ∧ r ≠ 0 ∧ r ≠ t) ∧
        p ∉ (L.foldl (B.possibleStep t) s).ignore
  | [], _, _, _, ho => Or.inl ho
  | q :: L, s, hnd, ob, ho => by
    simp only [List.foldl_cons] at ho ⊢
    rcases stepFold_open_sub B t L _ (List.Nodup.of_cons hnd) ob ho with
      h | ⟨p, hp, hcov, he, hr, hpig⟩
    · rcases possibleStep_open_sub B t s q ob h with h2 | ⟨he, hcov, hig, -, hr, hieq⟩
      · exact Or.inl h2
      · refine Or.inr ⟨q, List.mem_cons_self q L, hcov, he, hr, fun hcontra => ?_⟩
        rcases stepFold_ignore_sub B t L _ q hcontra with h3 | h3
        · rw [hieq] at h3
          exact hig h3
        · exact (List.nodup_cons.mp hnd).1 h3
    · exact Or.inr ⟨p, List.mem_cons_of_mem _ hp, hcov, he, hr, hpig⟩

theorem stepFold_open_length (B : Board) (t : Nat) :
    ∀ (L : List (Nat × Nat)) (s : SearchState),
      (L.foldl (B.possibleStep t) s).openBoards.length ≤ s.openBoards.length +
        L.countP (fun p => B.cellAt p.1 p.2 = CellTypes.Covered)
  | [], s => by simp
  | q :: L, s => by
    simp only [List.foldl_cons, List.countP_cons]
    have h1 := stepFold_open_length B t L (B.possibleStep t s q)
    have h2 := possibleStep_open_length B t s q
    by_cases hcov : B.cellAt q.1 q.2 = CellTypes.Covered
    · rw [if_pos hcov] at h2
      have h3 : (if decide (B.cellAt q.1 q.2 = CellTypes.Covered) = true
          then 1 else 0) = 1 := by simp [hcov]
      rw [h3]
      omega
    · rw [if_neg hcov] at h2
      have h3 : (if decide (B.cellAt q.1 q.2 = CellTypes.Covered) = true
          then 1 else 0) = 0 := by simp [hcov]
      rw [h3]
      omega

/-- The spec's search example board: `? 1 ?` in one row. -/
def exampleRow1 : Board :=
  { board := [[CellTypes.Covered, CellTypes.Value 1, CellTypes.Covered]],
    width := 3, height := 1 }

/-- C7: the Ignore set only grows, both within one expansion call and
across the whole work-queue loop; every open board an expansion produces
speculates on a coordinate outside the resulting (hence also the incoming)
Ignore set; and every board ever enqueued during the loop either was in the
initial queue or speculates a Bomb at a coordinate not in the Ignore set at
the time, so a coordinate added to the Ignore set is never the newly
assigned cell of any later open state. -/
theorem claim7_ignore_monotone :
    (∀ (B : Board) (visited : List (List (List Nat))) (ignore : List (Nat × Nat))
        (a : Nat × Nat), a ∈ ignore → a ∈ (B.get_possible_boards visited ignore).ignore)
    ∧ (∀ (B : Board) (visited : List (List (List Nat))) (ignore : List (Nat × Nat))
        (ob : Board), ob ∈ (B.get_possible_boards visited ignore).openBoards →
        ∃ p, B.cellAt p.1 p.2 = CellTypes.Covered ∧
          ob = B.setCell p.1 p.2 CellTypes.Bomb ∧
          p ∉ (B.get_possible_boards visited ignore).ignore ∧ p ∉ ignore)
    ∧ (∀ (n : Nat) (s : DriverState) (a : Nat × Nat), a ∈ s.ignore →
        a ∈ (runSearch n s).ignore)
    ∧ (∀ (n : Nat) (s : DriverState) (b2 : Board), b2 ∈ (runSearch n s).queue →
        b2 ∈ s.queue ∨ ∃ (parent : Board) (p : Nat × Nat),
          parent.cellAt p.1 p.2 = CellTypes.Covered ∧
          b2 = parent.setCell p.1 p.2 CellTypes.Bomb ∧ p ∉ s.ignore) := by
  have hcall : ∀ (B : Board) (visited : List (List (List Nat)))
      (ignore : List (Nat × Nat)) (a : Nat × Nat), a ∈ ignore →
      a ∈ (B.get_possible_boards visited ignore).ignore := by
    intro B visited ignore a ha
    unfold Board.get_possible_boards
    exact stepFold_ignore_mono B _ B.coords _ a ha
  have hopen : ∀ (B : Board) (visited : List (List (List Nat)))
      (ignore : List (Nat × Nat)) (ob : Board),
      ob ∈ (B.get_possible_boards visited ignore).openBoards →
      ∃ p, B.cellAt p.1 p.2 = CellTypes.Covered ∧
        ob = B.setCell p.1 p.2 CellTypes.Bomb ∧
        p ∉ (B.get_possible_boards visited ignore).ignore ∧ p ∉ ignore := by
    intro B visited ignore ob hob
    unfold Board.get_possible_boards at hob ⊢
    rcases stepFold_open_sub B _ B.coords _ B.coords_nodup ob hob with
      h | ⟨p, hp, hcov, he, -, hpig⟩
    · exact absurd h (List.not_mem_nil ob)
    · refine ⟨p, hcov, he, hpig, fun hcontra => hpig ?_⟩
      exact stepFold_ignore_mono B _ B.coords _ p hcontra
  have hdrv : ∀ (n : Nat) (s : DriverState) (a : Nat × Nat), a ∈ s.ignore →
      a ∈ (runSearch n s).ignore := by
    intro n
    induction n with
    | zero => exact fun s a ha => ha
    | succ n ih =>
      intro s a ha
      unfold runSearch
      by_cases hq : s.queue = []
      · rw [if_pos hq]; exact ha
      · rw [if_neg hq]
        refine ih (driverStep s) a ?_
        unfold driverStep
        cases hqq : s.queue with
        | nil => exact absurd hqq hq
        | cons b rest =>
          simp only
          exact hcall b s.visited s.ignore a ha
  refine ⟨hcall, hopen, hdrv, ?_⟩
  intro n
  induction n with
  | zero => exact fun s b2 hb => Or.inl hb
  | succ n ih =>
    intro s b2 hb
    unfold runSearch at hb
    by_cases hq : s.queue = []
    · rw [if_pos hq] at hb; exact Or.inl hb
    · rw [if_neg hq] at hb
      have hig_step : ∀ a, a ∈ s.ignore → a ∈ (driverStep s).ignore := by
        intro a ha
        unfold driverStep
        cases hqq : s.queue with
        | nil => exact absurd hqq hq
        | cons b rest =>
          simp only
          exact hcall b s.visited s.ignore a ha
      rcases ih (driverStep s) b2 hb with h | ⟨parent, p, hcov, he, hpig⟩
      · unfold driverStep at h
        cases hqq : s.queue with
        | nil => exact absurd hqq hq
        | cons b rest =>
          rw [hqq] at h
          simp only at h
          rcases List.mem_append.mp h with h2 | h2
          · exact Or.inl (List.mem_cons_of_mem _ h2)
          · obtain ⟨p, hcov, he, -, hpig⟩ := hopen b s.visited s.ignore b2 h2
            exact Or.inr ⟨b, p, hcov, he, hpig⟩
      · exact Or.inr ⟨parent, p, hcov, he, fun hcontra => hpig (hig_step p hcontra)⟩

/-- C7 witness: a coordinate already in the Ignore set survives a concrete
expansion call of the `? 1 ?` board. -/
theorem claim7_ignore_monotone_witness :
    (0, 0) ∈ (exampleRow1.get_possible_boards [] [(0, 0)]).ignore :=
  claim7_ignore_monotone.1 exampleRow1 [] [(0, 0)] (0, 0) (by decide)

theorem cellAt_candidate_ne {B : Board} {p q : Nat × Nat} (h : q ≠ p) :
    (candidate B p).cellAt q.1 q.2 = B.cellAt q.1 q.2 :=
  B.cellAt_setCell_ne _ (fun hh => h (Prod.ext_iff.mpr
    ⟨(Prod.mk.injEq .. ▸ hh).1, (Prod.mk.injEq .. ▸ hh).2⟩))

theorem bombCount_candidate_ge (B : Board) (p : Nat × Nat)
    (hcov : B.cellAt p.1 p.2 = CellTypes.Covered) (x y : Nat) :
    B.bombNeighborCount x y ≤ (candidate B p).bombNeighborCount x y := by
  unfold Board.bombNeighborCount
  have hnl : (candidate B p).neighborList x y = B.neighborList x y := rfl
  rw [hnl]
  apply List.countP_mono_left
  intro a _ ha
  simp only [decide_eq_true_eq] at ha ⊢
  by_cases hap : a = p
  · subst hap
    rw [ha] at hcov
    exact CellTypes.noConfusion hcov
  · rw [cellAt_candidate_ne hap]
    exact ha

theorem contribution_candidate_le (B : Board) (p : Nat × Nat)
    (hcov : B.cellAt p.1 p.2 = CellTypes.Covered) (x y : Nat) :
    (candidate B p).contribution x y ≤ B.contribution x y := by
  unfold Board.contribution Board.cellData
  by_cases hxy : ((x, y) : Nat × Nat) = p
  · have hxp : x = p.1 := by rw [← hxy]
    have hyp : y = p.2 := by rw [← hxy]
    subst hxp; subst hyp
    rcases B.cellAt_setCell_cases p.1 p.2 p.1 p.2 CellTypes.Bomb with he | he
    · unfold candidate
      rw [he, hcov]
    · unfold candidate
      rw [he, hcov]
  · have hce : (candidate B p).cellAt x y = B.cellAt x y :=
      cellAt_candidate_ne hxy
    rw [hce]
    cases hc : B.cellAt x y with
    | Value v =>
      simp only
      by_cases hv : v = 0
      · rw [if_pos hv, if_pos hv]
      · rw [if_neg hv, if_neg hv]
        simp only
        apply Int.toNat_le_toNat
        have := bombCount_candidate_ge B p hcov x y
        omega
    | Covered => exact Nat.le_refl 0
    | Bomb => exact Nat.le_refl 0

theorem totalRequired_candidate_le (B : Board) (p : Nat × Nat)
    (hcov : B.cellAt p.1 p.2 = CellTypes.Covered) :
    (candidate B p).totalRequired ≤ B.totalRequired := by
  unfold Board.totalRequired
  have hco : (candidate B p).coords = B.coords := rfl
  rw [hco]
  exact List.sum_le_sum (fun q _ => contribution_candidate_le B p hcov q.1 q.2)

theorem validate_candidate_le {B : Board} {p : Nat × Nat} {t r : Nat}
    (hcov : B.cellAt p.1 p.2 = CellTypes.Covered)
    (hB : B.validate_board = Except.ok t)
    (hc : (candidate B p).validate_board = Except.ok r) : r ≤ t := by
  have h1 := ((validate_ok_iff B t).mp hB).2
  have h2 := ((validate_ok_iff (candidate B p) r).mp hc).2
  rw [h1, h2]
  exact totalRequired_candidate_le B p hcov

theorem countP_change {α : Type} (f g : α → Bool) :
    ∀ (L : List α), L.Nodup → ∀ a ∈ L, f a = true → g a = false →
      (∀ b ∈ L, b ≠ a → f b = g b) → L.countP g + 1 = L.countP f
  | [], _, a, ha, _, _, _ => absurd ha (List.not_mem_nil a)
  | c :: L, hnd, a, ha, hf, hg, hfg => by
    rcases List.mem_cons.mp ha with rfl | ha
    · rw [List.countP_cons, List.countP_cons, hf, hg]
      have hLfg : L.countP g = L.countP f := by
        apply List.countP_congr
        intro b hb
        rw [hfg b (List.mem_cons_of_mem _ hb)
          (fun hcontra => (List.nodup_cons.mp hnd).1 (hcontra ▸ hb))]
      simp [hLfg]
    · have hca : c ≠ a := fun hcontra =>
        (List.nodup_cons.mp hnd).1 (hcontra ▸ ha)
      rw [List.countP_cons, List.countP_cons,
        hfg c (List.mem_cons_self c L) hca]
      have := countP_change f g L (List.Nodup.of_cons hnd) a ha hf hg
        (fun b hb hba => hfg b (List.mem_cons_of_mem _ hb) hba)
      omega

theorem coveredCount_candidate {B : Board} {p : Nat × Nat} (hwf : B.WF)
    (hx : p.1 < B.width) (hy : p.2 < B.height)
    (hcov : B.cellAt p.1 p.2 = CellTypes.Covered) :
    (candidate B p).coveredCount + 1 = B.coveredCount := by
  unfold Board.coveredCount
  have hco : (candidate B p).coords = B.coords := rfl
  rw [hco]
  apply countP_change _ _ B.coords B.coords_nodup p ((B.mem_coords p).mpr ⟨hx, hy⟩)
  · simpa using hcov
  · have : (candidate B p).cellAt p.1 p.2 = CellTypes.Bomb :=
      B.cellAt_setCell_self_wf hwf CellTypes.Bomb hx hy
    simp [this]
  · intro b _ hba
    have : (candidate B p).cellAt b.1 b.2 = B.cellAt b.1 b.2 :=
      cellAt_candidate_ne hba
    rw [this]

theorem get_possible_boards_eq (B : Board) (visited : List (List (List Nat)))
    (ignore : List (Nat × Nat)) {t : Nat} (hB : B.validate_board = Except.ok t) :
    B.get_possible_boards visited ignore =
      B.coords.foldl (B.possibleStep t)
        { visited := visited, ignore := ignore, solved := [], openBoards := [] } := by
  unfold Board.get_possible_boards
  rw [hB]
  rfl

theorem open_board_progress {B : Board} {t : Nat} (hwf : B.WF)
    (hB : B.validate_board = Except.ok t) (visited : List (List (List Nat)))
    (ignore : List (Nat × Nat)) (ob : Board)
    (hob : ob ∈ (B.get_possible_boards visited ignore).openBoards) :
    (∃ r, ob.validate_board = Except.ok r ∧ 0 < r ∧ r < t) ∧
      ob.coveredCount + 1 = B.coveredCount := by
  rw [get_possible_boards_eq B visited ignore hB] at hob
  rcases stepFold_open_sub B t B.coords _ B.coords_nodup ob hob with
    h | ⟨p, hp, hcov, he, ⟨r, hok, hr0, hrt⟩, -⟩
  · exact absurd h (List.not_mem_nil ob)
  · obtain ⟨hx, hy⟩ := (B.mem_coords p).mp hp
    subst he
    refine ⟨⟨r, hok, Nat.pos_of_ne_zero hr0, ?_⟩, ?_⟩
    · exact lt_of_le_of_ne (validate_candidate_le hcov hB hok) hrt
    · exact coveredCount_candidate hwf hx hy hcov

theorem open_boards_wf {B : Board} (hwf : B.WF) (visited : List (List (List Nat)))
    (ignore : List (Nat × Nat)) (ob : Board)
    (hob : ob ∈ (B.get_possible_boards visited ignore).openBoards) : ob.WF := by
  unfold Board.get_possible_boards at hob
  rcases stepFold_open_sub B _ B.coords _ B.coords_nodup ob hob with
    h | ⟨p, -, -, he, -, -⟩
  · exact absurd h (List.not_mem_nil ob)
  · subst he
    exact hwf.setCell p.1 p.2 CellTypes.Bomb

theorem open_boards_coveredCount {B : Board} (hwf : B.WF)
    (visited : List (List (List Nat))) (ignore : List (Nat × Nat)) (ob : Board)
    (hob : ob ∈ (B.get_possible_boards visited ignore).openBoards) :
    ob.coveredCount + 1 = B.coveredCount := by
  unfold Board.get_possible_boards at hob
  rcases stepFold_open_sub B _ B.coords _ B.coords_nodup ob hob with
    h | ⟨p, hp, hcov, he, -, -⟩
  · exact absurd h (List.not_mem_nil ob)
  · obtain ⟨hx, hy⟩ := (B.mem_coords p).mp hp
    subst he
    exact coveredCount_candidate hwf hx hy hcov

theorem open_boards_length {B : Board} (visited : List (List (List Nat)))
    (ignore : List (Nat × Nat)) :
    (B.get_possible_boards visited ignore).openBoards.length ≤ B.coveredCount := by
  unfold Board.get_possible_boards Board.coveredCount
  have := stepFold_open_length B ((B.validate_board).toOption.getD 0) B.coords
    { visited := visited, ignore := ignore, solved := [], openBoards := [] }
  simpa using this

theorem searchFuel_driverStep {s : DriverState} (hq : s.queue ≠ [])
    (hwf : ∀ b ∈ s.queue, b.WF) : searchFuel (driverStep s) < searchFuel s := by
  unfold driverStep
  cases hqq : s.queue with
  | nil => exact absurd hqq hq
  | cons b rest =>
    simp only
    unfold searchFuel
    rw [hqq]
    simp only [List.map_cons, List.sum_cons, List.map_append, List.sum_append]
    have hwfb : b.WF := hwf b (by rw [hqq]; exact List.mem_cons_self b rest)
    set opens := (b.get_possible_boards s.visited s.ignore).openBoards with hopens
    have hsum : (opens.map (fun bb => Nat.factorial (bb.coveredCount + 1))).sum ≤
        opens.length * Nat.factorial b.coveredCount := by
      have hb2 : ∀ x ∈ opens.map (fun bb => Nat.factorial (bb.coveredCount + 1)),
          x ≤ Nat.factorial b.coveredCount := by
        intro x hx
        obtain ⟨ob, hob, hxe⟩ := List.mem_map.mp hx
        have hcc := open_boards_coveredCount hwfb s.visited s.ignore ob hob
        subst hxe
        rw [hcc]
      have := List.sum_le_card_nsmul _ _ hb2
      simpa [smul_eq_mul] using this
    have hlen : opens.length ≤ b.coveredCount :=
      open_boards_length s.visited s.ignore
    have hfact : opens.length * Nat.factorial b.coveredCount <
        Nat.factorial (b.coveredCount + 1) := by
      rw [Nat.factorial_succ]
      calc opens.length * Nat.factorial b.coveredCount
          ≤ b.coveredCount * Nat.factorial b.coveredCount :=
            Nat.mul_le_mul_right _ hlen
        _ < (b.coveredCount + 1) * Nat.factorial b.coveredCount :=
            (Nat.mul_lt_mul_right (Nat.factorial_pos _)).mpr (Nat.lt_succ_self _)
    omega

theorem driverStep_wf {s : DriverState} (hwf : ∀ b ∈ s.queue, b.WF) :
    ∀ b ∈ (driverStep s).queue, b.WF := by
  unfold driverStep
  cases hqq : s.queue with
  | nil => exact fun b hb => hwf b hb
  | cons b rest =>
    simp only
    intro b2 hb2
    rcases List.mem_append.mp hb2 with h | h
    · exact hwf b2 (by rw [hqq]; exact List.mem_cons_of_mem _ h)
    · exact open_boards_wf (hwf b (by rw [hqq]; exact List.mem_cons_self b rest))
        s.visited s.ignore b2 h

theorem runSearch_drains :
    ∀ (fuel : Nat) (s : DriverState), (∀ b ∈ s.queue, b.WF) →
      searchFuel s ≤ fuel → (runSearch fuel s).queue = []
  | 0, s, _, hfuel => by
    unfold runSearch
    cases hqq : s.queue with
    | nil => rfl
    | cons b rest =>
      exfalso
      unfold searchFuel at hfuel
      rw [hqq] at hfuel
      simp only [List.map_cons, List.sum_cons] at hfuel
      have := Nat.factorial_pos (b.coveredCount + 1)
      omega
  | fuel + 1, s, hwf, hfuel => by
    unfold runSearch
    by_cases hq : s.queue = []
    · rw [if_pos hq]
      exact hq
    · rw [if_neg hq]
      apply runSearch_drains fuel (driverStep s) (driverStep_wf hwf)
      have := searchFuel_driverStep hq hwf
      omega

/-- C4: every candidate enqueued as an open state has a Validator total
strictly between 0 and its (valid) parent's total, and exactly one fewer
covered cell than its parent; and the work queue drains: with fuel equal to
the sum over the queue of `(coveredCount + 1)!`, the loop reaches the empty
queue.  (Rectangularity of the queued boards is the standing invariant
`from_string` establishes.) -/
theorem claim4_search_terminates :
    (∀ (B : Board) (t : Nat) (visited : List (List (List Nat)))
        (ignore : List (Nat × Nat)) (ob : Board),
      B.WF → B.validate_board = Except.ok t →
      ob ∈ (B.get_possible_boards visited ignore).openBoards →
      (∃ r, ob.validate_board = Except.ok r ∧ 0 < r ∧ r < t) ∧
        ob.coveredCount + 1 = B.coveredCount)
    ∧ (∀ (fuel : Nat) (s : DriverState), (∀ b ∈ s.queue, b.WF) →
        searchFuel s ≤ fuel → (runSearch fuel s).queue = []) :=
  ⟨fun B t visited ignore ob hwf hB hob =>
      open_board_progress hwf hB visited ignore ob hob,
    runSearch_drains⟩

/-- C4 witness: the search on the `? 1 ?` board drains its queue within the
stated fuel. -/
def exampleDriverState : DriverState :=
  { queue := [exampleRow1], visited := [], ignore := [], possibilities := [] }

theorem claim4_search_terminates_witness :
    (runSearch (searchFuel exampleDriverState) exampleDriverState).queue = [] :=
  claim4_search_terminates.2 _ _ (by decide) (Nat.le_refl _)

theorem get_hash_cellAt_id {b1 b2 : Board} (h : b1.get_hash = b2.get_hash)
    {x y : Nat} (hy : y < b1.board.length) (hx : x < (b1.board.getD y []).length) :
    CellTypes.id (b1.cellAt x y) = CellTypes.id (b2.cellAt x y) := by
  unfold Board.get_hash at h
  have hrow : (b1.board.map (List.map CellTypes.id))[y]? =
      (b2.board.map (List.map CellTypes.id))[y]? := by rw [h]
  rw [List.getElem?_map, List.getElem?_map] at hrow
  rw [List.getElem?_eq_getElem hy] at hrow
  simp only [Option.map_some'] at hrow
  rcases hb2y : b2.board[y]? with _ | r2
  · rw [hb2y] at hrow
    exact Option.noConfusion hrow
  · rw [hb2y] at hrow
    simp only [Option.map_some', Option.some.injEq] at hrow
    have hcol : (List.map CellTypes.id b1.board[y])[x]? =
        (List.map CellTypes.id r2)[x]? := by rw [hrow]
    rw [List.getElem?_map, List.getElem?_map] at hcol
    have hx2 : x < b1.board[y].length := by
      have : b1.board.getD y [] = b1.board[y] := by
        rw [List.getD_eq_getElem?_getD, List.getElem?_eq_getElem hy]
        rfl
      rwa [this] at hx
    rw [List.getElem?_eq_getElem hx2] at hcol
    simp only [Option.map_some'] at hcol
    rcases hr2x : r2[x]? with _ | c2
    · rw [hr2x] at hcol
      exact Option.noConfusion hcol
    · rw [hr2x] at hcol
      simp only [Option.map_some', Option.some.injEq] at hcol
      have hgy : b1.board.getD y [] = b1.board[y] := by
        rw [List.getD_eq_getElem?_getD, List.getElem?_eq_getElem hy]
        rfl
      have hc1 : b1.cellAt x y = b1.board[y][x] := by
        unfold Board.cellAt
        rw [hgy, List.getD_eq_getElem?_getD, List.getElem?_eq_getElem hx2]
        rfl
      have hgy2 : b2.board.getD y [] = r2 := by
        rw [List.getD_eq_getElem?_getD, hb2y]
        rfl
      have hc2 : b2.cellAt x y = c2 := by
        unfold Board.cellAt
        rw [hgy2, List.getD_eq_getElem?_getD, hr2x]
        rfl
      rw [hc1, hc2, hcol]

theorem candidate_hash_ne {B : Board} (hwf : B.WF) {p q : Nat × Nat}
    (hne : p ≠ q) (hpx : p.1 < B.width) (hpy : p.2 < B.height)
    (hpcov : B.cellAt p.1 p.2 = CellTypes.Covered)
    (hqcov : B.cellAt q.1 q.2 = CellTypes.Covered) :
    (candidate B p).get_hash ≠ (candidate B q).get_hash := by
  intro h
  have hwfp : (candidate B p).WF := hwf.setCell p.1 p.2 CellTypes.Bomb
  have hy : p.2 < (candidate B p).board.length := by
    have h1 := hwfp.1
    have h2 : (candidate B p).height = B.height := rfl
    omega
  have hx : p.1 < ((candidate B p).board.getD p.2 []).length := by
    rw [Board.getD_board_eq hwfp (by exact hpy)]
    exact hpx
  have hid := get_hash_cellAt_id h hy hx
  have h1 : (candidate B p).cellAt p.1 p.2 = CellTypes.Bomb :=
    B.cellAt_setCell_self_wf hwf CellTypes.Bomb hpx hpy
  have h2 : (candidate B q).cellAt p.1 p.2 = B.cellAt p.1 p.2 :=
    cellAt_candidate_ne hne
  rw [h1, h2, hpcov] at hid
  exact absurd hid (by decide)

theorem candidate_ne {B : Board} (hwf : B.WF) {p q : Nat × Nat}
    (hne : p ≠ q) (hpx : p.1 < B.width) (hpy : p.2 < B.height)
    (hpcov : B.cellAt p.1 p.2 = CellTypes.Covered)
    (hqcov : B.cellAt q.1 q.2 = CellTypes.Covered) :
    candidate B p ≠ candidate B q := by
  intro h
  exact candidate_hash_ne hwf hne hpx hpy hpcov hqcov (by rw [h])

theorem stepFold_frame (B : Board) (t : Nat) (hwf : B.WF) {p : Nat × Nat}
    (hpx : p.1 < B.width) (hpy : p.2 < B.height)
    (hpcov : B.cellAt p.1 p.2 = CellTypes.Covered) :
    ∀ (L : List (Nat × Nat)) (s : SearchState), (∀ q ∈ L, q ∈ B.coords) → p ∉ L →
      ((candidate B p ∈ (L.foldl (B.possibleStep t) s).solved ↔
          candidate B p ∈ s.solved) ∧
        (candidate B p ∈ (L.foldl (B.possibleStep t) s).openBoards ↔
          candidate B p ∈ s.openBoards) ∧
        (p ∈ (L.foldl (B.possibleStep t) s).ignore ↔ p ∈ s.ignore) ∧
        ((candidate B p).get_hash ∈ (L.foldl (B.possibleStep t) s).visited ↔
          (candidate B p).get_hash ∈ s.visited))
  | [], s, _, _ => ⟨Iff.rfl, Iff.rfl, Iff.rfl, Iff.rfl⟩
  | q :: L, s, hsub, hpL => by
    have hqp : q ≠ p := fun hh => hpL (hh ▸ List.mem_cons_self q L)
    have hpq : p ≠ q := fun hh => hqp hh.symm
    obtain ⟨h1, h2, h3, h4⟩ := stepFold_frame B t hwf hpx hpy hpcov L
      (B.possibleStep t s q) (fun a ha => hsub a (List.mem_cons_of_mem _ ha))
      (fun hh => hpL (List.mem_cons_of_mem _ hh))
    simp only [List.foldl_cons]
    refine ⟨h1.trans ?_, h2.trans ?_, h3.trans ?_, h4.trans ?_⟩
    · constructor
      · intro hm
        rcases possibleStep_solved_sub B t s q _ hm with h | ⟨he, hqcov, -, -, -⟩
        · exact h
        · obtain ⟨hqx, hqy⟩ := (B.mem_coords q).mp (hsub q (List.mem_cons_self q L))
          exact absurd he (candidate_ne hwf hpq hpx hpy hpcov hqcov)
      · exact possibleStep_solved_mono B t s q _
    · constructor
      · intro hm
        rcases possibleStep_open_sub B t s q _ hm with h | ⟨he, hqcov, -, -, -, -⟩
        · exact h
        · obtain ⟨hqx, hqy⟩ := (B.mem_coords q).mp (hsub q (List.mem_cons_self q L))
          exact absurd he (candidate_ne hwf hpq hpx hpy hpcov hqcov)
      · exact possibleStep_open_mono B t s q _
    · constructor
      · intro hm
        rcases possibleStep_ignore_sub B t s q p hm with h | h
        · exact h
        · exact absurd h.symm hqp
      · exact possibleStep_ignore_mono B t s q p
    · constructor
      · intro hm
        rcases possibleStep_visited_sub B t s q _ hm with h | ⟨he, hqcov⟩
        · exact h
        · obtain ⟨hqx, hqy⟩ := (B.mem_coords q).mp (hsub q (List.mem_cons_self q L))
          exact absurd he (candidate_hash_ne hwf hpq hpx hpy hpcov hqcov)
      · exact possibleStep_visited_mono B t s q _

/-- C1: for a valid dequeued board with total `t > 0` and any covered
coordinate outside the Ignore set, the expansion builds the candidate with
that coordinate set to `Bomb` and classifies it exactly by its validation
outcome: a candidate whose hash was already visited is dropped without any
effect on the outputs; a fresh candidate with total 0 lands in the solved
set and is not enqueued; total equal to `t` puts the coordinate into the
Ignore set and discards the candidate; any other valid total enqueues the
candidate as an open state; a failing candidate is discarded. -/
theorem claim1_candidate_classification (B : Board) (t : Nat)
    (visited : List (List (List Nat))) (ignore : List (Nat × Nat))
    (p : Nat × Nat) (hwf : B.WF) (hB : B.validate_board = Except.ok t)
    (ht : 0 < t) (hx : p.1 < B.width) (hy : p.2 < B.height)
    (hcov : B.cellAt p.1 p.2 = CellTypes.Covered) (hig : p ∉ ignore) :
    ((candidate B p).get_hash ∈ visited →
      candidate B p ∉ (B.get_possible_boards visited ignore).solved ∧
      candidate B p ∉ (B.get_possible_boards visited ignore).openBoards ∧
      p ∉ (B.get_possible_boards visited ignore).ignore) ∧
    ((candidate B p).get_hash ∉ visited →
      (((candidate B p).validate_board = Except.ok 0 →
          candidate B p ∈ (B.get_possible_boards visited ignore).solved ∧
          candidate B p ∉ (B.get_possible_boards visited ignore).openBoards ∧
          p ∉ (B.get_possible_boards visited ignore).ignore) ∧
        ((candidate B p).validate_board = Except.ok t →
          p ∈ (B.get_possible_boards visited ignore).ignore ∧
          candidate B p ∉ (B.get_possible_boards visited ignore).solved ∧
          candidate B p ∉ (B.get_possible_boards visited ignore).openBoards) ∧
        (∀ r, (candidate B p).validate_board = Except.ok r → r ≠ 0 → r ≠ t →
          candidate B p ∈ (B.get_possible_boards visited ignore).openBoards ∧
          candidate B p ∉ (B.get_possible_boards visited ignore).solved ∧
          p ∉ (B.get_possible_boards visited ignore).ignore) ∧
        (∀ e, (candidate B p).validate_board = Except.error e →
          candidate B p ∉ (B.get_possible_boards visited ignore).solved ∧
          candidate B p ∉ (B.get_possible_boards visited ignore).openBoards ∧
          p ∉ (B.get_possible_boards visited ignore).ignore))) := by
  have hp : p ∈ B.coords := (B.mem_coords p).mpr ⟨hx, hy⟩
  obtain ⟨L1, L2, hsplit⟩ := List.append_of_mem hp
  have hnd : (L1 ++ p :: L2).Nodup := hsplit ▸ B.coords_nodup
  obtain ⟨hnd1, hnd2, hdisj⟩ := List.nodup_append.mp hnd
  have hpL1 : p ∉ L1 := fun hh => hdisj hh (List.mem_cons_self p L2)
  have hpL2 : p ∉ L2 := (List.nodup_cons.mp hnd2).1
  have hsubL1 : ∀ q ∈ L1, q ∈ B.coords := fun q hq => by
    rw [hsplit]; exact List.mem_append_left _ hq
  have hsubL2 : ∀ q ∈ L2, q ∈ B.coords := fun q hq => by
    rw [hsplit]; exact List.mem_append_right _ (List.mem_cons_of_mem _ hq)
  rw [get_possible_boards_eq B visited ignore hB, hsplit, List.foldl_append]
  set s0 : SearchState :=
    { visited := visited, ignore := ignore, solved := [], openBoards := [] } with hs0
  set s1 := L1.foldl (B.possibleStep t) s0 with hs1
  have hfr1 := stepFold_frame B t hwf hx hy hcov L1 s0 hsubL1 hpL1
  have hig1 : p ∉ s1.ignore := fun hh => hig (hfr1.2.2.1.mp hh)
  have hsol1 : candidate B p ∉ s1.solved := fun hh =>
    List.not_mem_nil _ (hfr1.1.mp hh)
  have hop1 : candidate B p ∉ s1.openBoards := fun hh =>
    List.not_mem_nil _ (hfr1.2.1.mp hh)
  simp only [List.foldl_cons]
  have hfr2 := fun s => stepFold_frame B t hwf hx hy hcov L2 s hsubL2 hpL2
  constructor
  · intro hv
    have hv1 : (candidate B p).get_hash ∈ s1.visited := hfr1.2.2.2.mpr hv
    have hstep : B.possibleStep t s1 p = s1 := by
      rcases possibleStep_spec B t s1 p with ⟨heq, -⟩ | ⟨-, -, hvv, -⟩
      · exact heq
      · exact absurd hv1 hvv
    rw [hstep]
    obtain ⟨f1, f2, f3, -⟩ := hfr2 s1
    exact ⟨fun hh => hsol1 (f1.mp hh), fun hh => hop1 (f2.mp hh),
      fun hh => hig1 (f3.mp hh)⟩
  · intro hv
    have hv1 : (candidate B p).get_hash ∉ s1.visited := fun hh =>
      hv (hfr1.2.2.2.mp hh)
    rcases possibleStep_spec B t s1 p with ⟨-, hskip⟩ | ⟨-, -, -, hcl⟩
    · rcases hskip with h | h | h
      · exact absurd h hig1
      · exact absurd hcov h
      · exact absurd h hv1
    · obtain ⟨g1, g2, g3, -⟩ := hfr2 (B.possibleStep t s1 p)
      refine ⟨?_, ?_, ?_, ?_⟩
      · intro hval0
        rcases hcl with ⟨-, heq⟩ | ⟨r, hvr, hr0, -, -⟩ | ⟨r, hvr, hr0, -, -⟩ |
            ⟨e, hve, -⟩
        · refine ⟨g1.mpr ?_, fun hh => hop1 ?_, fun hh => hig1 ?_⟩
          · rw [heq]
            exact List.mem_append_right _ (List.mem_singleton.mpr rfl)
          · have hh2 := g2.mp hh
            rw [heq] at hh2
            exact hh2
          · have hh2 := g3.mp hh
            rw [heq] at hh2
            exact hh2
        · rw [hval0] at hvr
          injection hvr with hvr
          exact absurd hvr.symm hr0
        · rw [hval0] at hvr
          injection hvr with hvr
          exact absurd hvr.symm hr0
        · rw [hval0] at hve
          exact Except.noConfusion hve
      · intro hvalt
        rcases hcl with ⟨hv0, heq⟩ | ⟨r, hvr, -, hrt, heq⟩ | ⟨r, hvr, -, hrt, -⟩ |
            ⟨e, hve, -⟩
        · rw [hvalt] at hv0
          injection hv0 with hv0
          omega
        · refine ⟨g3.mpr ?_, fun hh => hsol1 ?_, fun hh => hop1 ?_⟩
          · rw [heq]
            exact List.mem_cons_self p _
          · have hh2 := g1.mp hh
            rw [heq] at hh2
            exact hh2
          · have hh2 := g2.mp hh
            rw [heq] at hh2
            exact hh2
        · rw [hvalt] at hvr
          injection hvr with hvr
          exact absurd hvr.symm hrt
        · rw [hvalt] at hve
          exact Except.noConfusion hve
      · intro r hvalr hr0 hrt
        rcases hcl with ⟨hv0, heq⟩ | ⟨r2, hvr, -, hrt2, -⟩ | ⟨r2, hvr, -, -, heq⟩ |
            ⟨e, hve, -⟩
        · rw [hvalr] at hv0
          injection hv0 with hv0
          exact absurd hv0 hr0
        · rw [hvalr] at hvr
          injection hvr with hvr
          rw [← hvr] at hrt2
          exact absurd hrt2 hrt
        · refine ⟨g2.mpr ?_, fun hh => hsol1 ?_, fun hh => hig1 ?_⟩
          · rw [heq]
            exact List.mem_append_right _ (List.mem_singleton.mpr rfl)
          · have hh2 := g1.mp hh
            rw [heq] at hh2
            exact hh2
          · have hh2 := g3.mp hh
            rw [heq] at hh2
            exact hh2
        · rw [hvalr] at hve
          exact Except.noConfusion hve
      · intro e hvale
        rcases hcl with ⟨hv0, -⟩ | ⟨r2, hvr, -, -, -⟩ | ⟨r2, hvr, -, -, -⟩ |
            ⟨e2, -, heq⟩
        · rw [hvale] at hv0
          exact Except.noConfusion hv0
        · rw [hvale] at hvr
          exact Except.noConfusion hvr
        · rw [hvale] at hvr
          exact Except.noConfusion hvr
        · refine ⟨fun hh => hsol1 ?_, fun hh => hop1 ?_, fun hh => hig1 ?_⟩
          · have hh2 := g1.mp hh
            rw [heq] at hh2
            exact hh2
          · have hh2 := g2.mp hh
            rw [heq] at hh2
            exact hh2
          · have hh2 := g3.mp hh
            rw [heq] at hh2
            exact hh2

/-- C1 witness: on the `? 1 ?` board (total 1), speculating a Bomb at the
fresh covered coordinate (0,0) yields a candidate with total 0, which lands
in the solved set, is not enqueued, and does not touch the ignore set. -/
theorem claim1_candidate_classification_witness :
    candidate exampleRow1 (0, 0) ∈
        (exampleRow1.get_possible_boards [] []).solved ∧
      candidate exampleRow1 (0, 0) ∉
        (exampleRow1.get_possible_boards [] []).openBoards ∧
      (0, 0) ∉ (exampleRow1.get_possible_boards [] []).ignore :=
  ((claim1_candidate_classification exampleRow1 1 [] [] (0, 0) (by decide)
      (by decide) (by decide) (by decide) (by decide) (by decide)
      (by decide)).2 (by decide)).1 (by decide)

/-- Reads one character of a rendered grid. -/
def charAt (g : List (List Char)) (x y : Nat) : Char :=
  (g.getD y []).getD x ' '

/-- The character the rendering loop emits for one coordinate (it does not
depend on the `found` flag). -/
def guaranteedChar (base : Board) (poss : List Board) (ignore : List (Nat × Nat))
    (x y : Nat) : Char :=
  (renderCell base poss ignore false x y).1

/-- The safety probability the rendering loop records for one coordinate
while no guaranteed cell has been seen: `non_bomb / (non_bomb + bomb)` for
uncertain cells, 0 elsewhere. -/
def safeProb (base : Board) (poss : List Board) (ignore : List (Nat × Nat))
    (x y : Nat) : Rat :=
  (renderCell base poss ignore false x y).2.1

theorem renderCell_char_indep (base : Board) (poss : List Board)
    (ignore : List (Nat × Nat)) (f : Bool) (x y : Nat) :
    (renderCell base poss ignore f x y).1 = guaranteedChar base poss ignore x y := by
  simp only [guaranteedChar, renderCell]
  split_ifs <;> rfl

theorem renderCell_found_mono (base : Board) (poss : List Board)
    (ignore : List (Nat × Nat)) (f : Bool) (x y : Nat)
    (hf : f = true) : (renderCell base poss ignore f x y).2.2 = true := by
  subst hf
  simp only [renderCell]
  split_ifs <;> rfl

theorem renderCell_found_of (base : Board) (poss : List Board)
    (ignore : List (Nat × Nat)) (f : Bool) (x y : Nat)
    (h : (renderCell base poss ignore f x y).2.2 = true) :
    f = true ∨ guaranteedChar base poss ignore x y = '#' ∨
      guaranteedChar base poss ignore x y = 'O' := by
  simp only [renderCell] at h
  simp only [guaranteedChar, renderCell]
  split_ifs at h ⊢ <;> simp_all

theorem renderCell_prob_false (base : Board) (poss : List Board)
    (ignore : List (Nat × Nat)) (x y : Nat)
    (h : (renderCell base poss ignore false x y).2.2 = false) :
    (renderCell base poss ignore false x y).2.1 =
      safeProb base poss ignore x y := rfl

/-- One step of the row rendering fold. -/
def rowStep (base : Board) (poss : List Board) (ignore : List (Nat × Nat)) (y : Nat)
    (st : List Char × List Rat × Bool) (x : Nat) : List Char × List Rat × Bool :=
  (st.1 ++ [(renderCell base poss ignore st.2.2 x y).1],
    st.2.1 ++ [(renderCell base poss ignore st.2.2 x y).2.1],
    (renderCell base poss ignore st.2.2 x y).2.2)

theorem compileRow_eq (base : Board) (poss : List Board) (ignore : List (Nat × Nat))
    (y : Nat) (st : List Char × List Rat × Bool) :
    compileRow base poss ignore y st =
      (List.range base.width).foldl (rowStep base poss ignore y) st := rfl

theorem rowFold_chars (base : Board) (poss : List Board) (ignore : List (Nat × Nat))
    (y : Nat) :
    ∀ (xs : List Nat) (st : List Char × List Rat × Bool),
      (xs.foldl (rowStep base poss ignore y) st).1 =
        st.1 ++ xs.map (fun x => guaranteedChar base poss ignore x y)
  | [], st => by simp
  | x :: xs, st => by
    simp only [List.foldl_cons, List.map_cons]
    rw [rowFold_chars base poss ignore y xs]
    simp only [rowStep, renderCell_char_indep]
    simp

theorem rowFold_found_mono (base : Board) (poss : List Board)
    (ignore : List (Nat × Nat)) (y : Nat) :
    ∀ (xs : List Nat) (st : List Char × List Rat × Bool), st.2.2 = true →
      (xs.foldl (rowStep base poss ignore y) st).2.2 = true
  | [], _, h => h
  | x :: xs, st, h => by
    simp only [List.foldl_cons]
    exact rowFold_found_mono base poss ignore y xs _
      (renderCell_found_mono base poss ignore st.2.2 x y h)

theorem rowFold_found_of (base : Board) (poss : List Board)
    (ignore : List (Nat × Nat)) (y : Nat) :
    ∀ (xs : List Nat) (st : List Char × List Rat × Bool),
      (xs.foldl (rowStep base poss ignore y) st).2.2 = true →
      st.2.2 = true ∨ ∃ x ∈ xs, guaranteedChar base poss ignore x y = '#' ∨
        guaranteedChar base poss ignore x y = 'O'
  | [], _, h => Or.inl h
  | x :: xs, st, h => by
    simp only [List.foldl_cons] at h
    rcases rowFold_found_of base poss ignore y xs _ h with h2 | ⟨x2, hx2, hc⟩
    · rcases renderCell_found_of base poss ignore st.2.2 x y h2 with h3 | h3
      · exact Or.inl h3
      · exact Or.inr ⟨x, List.mem_cons_self x xs, h3⟩
    · exact Or.inr ⟨x2, List.mem_cons_of_mem _ hx2, hc⟩

theorem rowFold_probs (base : Board) (poss : List Board)
    (ignore : List (Nat × Nat)) (y : Nat) :
    ∀ (xs : List Nat) (cs : List Char) (ps : List Rat),
      (xs.foldl (rowStep base poss ignore y) (cs, ps, false)).2.2 = false →
      (xs.foldl (rowStep base poss ignore y) (cs, ps, false)).2.1 =
        ps ++ xs.map (fun x => safeProb base poss ignore x y)
  | [], _, _, _ => by simp
  | x :: xs, cs, ps, h => by
    simp only [List.foldl_cons] at h ⊢
    have hr : (renderCell base poss ignore false x y).2.2 = false := by
      cases hrr : (renderCell base poss ignore false x y).2.2 with
      | false => rfl
      | true =>
        exfalso
        have := rowFold_found_mono base poss ignore y xs
          (rowStep base poss ignore y (cs, ps, false) x)
          (by simp only [rowStep]; exact hrr)
        rw [this] at h
        exact Bool.noConfusion h
    have hstep : rowStep base poss ignore y (cs, ps, false) x =
        (cs ++ [guaranteedChar base poss ignore x y],
          ps ++ [safeProb base poss ignore x y], false) := by
      simp only [rowStep, renderCell_char_indep]
      rw [hr]
      rfl
    rw [hstep] at h ⊢
    rw [rowFold_probs base poss ignore y xs _ _ h]
    simp

/-- One step of the grid rendering fold. -/
def gridStep (base : Board) (poss : List Board) (ignore : List (Nat × Nat))
    (st : CompileState) (y : Nat) : CompileState :=
  { output := st.output ++ [(compileRow base poss ignore y ([], [], st.found)).1],
    probs := st.probs ++ [(compileRow base poss ignore y ([], [], st.found)).2.1],
    found := (compileRow base poss ignore y ([], [], st.found)).2.2 }

theorem compileGrid_eq (base : Board) (poss : List Board)
    (ignore : List (Nat × Nat)) :
    compileGrid base poss ignore =
      (List.range base.height).foldl (gridStep base poss ignore)
        { output := [], probs := [], found := false } := rfl

theorem gridFold_output (base : Board) (poss : List Board)
    (ignore : List (Nat × Nat)) :
    ∀ (ys : List Nat) (st : CompileState),
      (ys.foldl (gridStep base poss ignore) st).output =
        st.output ++ ys.map (fun y =>
          (List.range base.width).map (fun x => guaranteedChar base poss ignore x y))
  | [], st => by simp
  | y :: ys, st => by
    simp only [List.foldl_cons, List.map_cons]
    rw [gridFold_output base poss ignore ys]
    simp only [gridStep]
    rw [compileRow_eq, rowFold_chars]
    simp

theorem gridFold_found_mono (base : Board) (poss : List Board)
    (ignore : List (Nat × Nat)) :
    ∀ (ys : List Nat) (st : CompileState), st.found = true →
      (ys.foldl (gridStep base poss ignore) st).found = true
  | [], _, h => h
  | y :: ys, st, h => by
    simp only [List.foldl_cons]
    refine gridFold_found_mono base poss ignore ys _ ?_
    simp only [gridStep]
    rw [compileRow_eq]
    exact rowFold_found_mono base poss ignore y _ _ (by simpa using h)

theorem gridFold_found_of (base : Board) (poss : List Board)
    (ignore : List (Nat × Nat)) :
    ∀ (ys : List Nat) (st : CompileState),
      (ys.foldl (gridStep base poss ignore) st).found = true →
      st.found = true ∨ ∃ y ∈ ys, ∃ x ∈ List.range base.width,
        guaranteedChar base poss ignore x y = '#' ∨
          guaranteedChar base poss ignore x y = 'O'
  | [], _, h => Or.inl h
  | y :: ys, st, h => by
    simp only [List.foldl_cons] at h
    rcases gridFold_found_of base poss ignore ys _ h with h2 | ⟨y2, hy2, hx⟩
    · simp only [gridStep] at h2
      rw [compileRow_eq] at h2
      rcases rowFold_found_of base poss ignore y _ _ h2 with h3 | ⟨x, hx, hc⟩
      · exact Or.inl h3
      · exact Or.inr ⟨y, List.mem_cons_self y ys, x, hx, hc⟩
    · exact Or.inr ⟨y2, List.mem_cons_of_mem _ hy2, hx⟩

theorem gridFold_probs (base : Board) (poss : List Board)
    (ignore : List (Nat × Nat)) :
    ∀ (ys : List Nat) (os : List (List Char)) (ps : List (List Rat)),
      (ys.foldl (gridStep base poss ignore)
        { output := os, probs := ps, found := false }).found = false →
      (ys.foldl (gridStep base poss ignore)
        { output := os, probs := ps, found := false }).probs =
        ps ++ ys.map (fun y =>
          (List.range base.width).map (fun x => safeProb base poss ignore x y))
  | [], _, _, _ => by simp
  | y :: ys, os, ps, h => by
    simp only [List.foldl_cons] at h ⊢
    have hrowf : (compileRow base poss ignore y ([], [], false)).2.2 = false := by
      cases hrr : (compileRow base poss ignore y ([], [], false)).2.2 with
      | false => rfl
      | true =>
        exfalso
        have := gridFold_found_mono base poss ignore ys
          (gridStep base poss ignore
            { output := os, probs := ps, found := false } y)
          (by simp only [gridStep]; exact hrr)
        rw [this] at h
        exact Bool.noConfusion h
    have hstep : gridStep base poss ignore
        { output := os, probs := ps, found := false } y =
        { output := os ++ [(compileRow base poss ignore y ([], [], false)).1],
          probs := ps ++ [(List.range base.width).map
            (fun x => safeProb base poss ignore x y)],
          found := false } := by
      simp only [gridStep]
      rw [show (compileRow base poss ignore y ([], [], false)).2.1 =
          (List.range base.width).map (fun x => safeProb base poss ignore x y) by
        rw [compileRow_eq] at hrowf ⊢
        have := rowFold_probs base poss ignore y (List.range base.width) [] [] hrowf
        simpa using this]
      rw [hrowf]
    rw [hstep] at h ⊢
    rw [gridFold_probs base poss ignore ys _ _ h]
    simp

/-- One step of the maximum-probability scan. -/
def argmaxUpd (probs : List (List Rat)) (m : Option (Rat × (Nat × Nat)))
    (c : Nat × Nat) : Option (Rat × (Nat × Nat)) :=
  match m with
  | none => some ((probs.getD c.2 []).getD c.1 0, c)
  | some mv =>
    if mv.1 < (probs.getD c.2 []).getD c.1 0
    then some ((probs.getD c.2 []).getD c.1 0, c) else m

/-- The grid coordinates in row-major order (`y` outer, `x` inner), the
order of the rendering and maximum scans. -/
def rowMajorCoords (w h : Nat) : List (Nat × Nat) :=
  (List.range h).flatMap (fun y => (List.range w).map (fun x => (x, y)))

theorem foldl_flatMap {α β γ : Type} (g : α → List β) (f : γ → β → γ) :
    ∀ (L : List α) (init : γ),
      (L.flatMap g).foldl f init = L.foldl (fun acc a => (g a).foldl f acc) init
  | [], _ => rfl
  | a :: L, init => by
    simp only [List.flatMap_cons, List.foldl_append, List.foldl_cons]
    exact foldl_flatMap g f L _

theorem argmaxProb_eq (probs : List (List Rat)) (w h : Nat) :
    argmaxProb probs w h = (rowMajorCoords w h).foldl (argmaxUpd probs) none := by
  unfold argmaxProb rowMajorCoords
  rw [foldl_flatMap]
  congr 1
  funext m y
  rw [List.foldl_map]
  rfl

theorem argmaxFold_from_some (probs : List (List Rat)) :
    ∀ (CS : List (Nat × Nat)) (pr : Rat) (c : Nat × Nat),
      (CS.foldl (argmaxUpd probs) (some (pr, c)) = some (pr, c) ∧
        ∀ q ∈ CS, (probs.getD q.2 []).getD q.1 0 ≤ pr) ∨
      (∃ pr2 c2 CS1 CS2,
        CS.foldl (argmaxUpd probs) (some (pr, c)) = some (pr2, c2) ∧
        CS = CS1 ++ c2 :: CS2 ∧ pr2 = (probs.getD c2.2 []).getD c2.1 0 ∧
        pr < pr2 ∧
        (∀ q ∈ CS1, (probs.getD q.2 []).getD q.1 0 < pr2) ∧
        (∀ q ∈ CS2, (probs.getD q.2 []).getD q.1 0 ≤ pr2))
  | [], pr, c => Or.inl ⟨rfl, by simp⟩
  | q :: CS, pr, c => by
    simp only [List.foldl_cons]
    by_cases h : pr < (probs.getD q.2 []).getD q.1 0
    · have hstep : argmaxUpd probs (some (pr, c)) q =
          some ((probs.getD q.2 []).getD q.1 0, q) := by
        simp only [argmaxUpd]
        rw [if_pos h]
      rw [hstep]
      rcases argmaxFold_from_some probs CS ((probs.getD q.2 []).getD q.1 0) q with
        ⟨heq, hall⟩ | ⟨pr2, c2, CS1, CS2, heq, hsplit, hval, hlt, h1, h2⟩
      · exact Or.inr ⟨_, q, [], CS, heq, rfl, rfl, h, by simp, hall⟩
      · refine Or.inr ⟨pr2, c2, q :: CS1, CS2, heq, by rw [hsplit]; rfl, hval,
          lt_trans h hlt, ?_, h2⟩
        intro a ha
        rcases List.mem_cons.mp ha with rfl | ha
        · exact hlt
        · exact h1 a ha
    · have hstep : argmaxUpd probs (some (pr, c)) q = some (pr, c) := by
        simp only [argmaxUpd]
        rw [if_neg h]
      rw [hstep]
      rcases argmaxFold_from_some probs CS pr c with
        ⟨heq, hall⟩ | ⟨pr2, c2, CS1, CS2, heq, hsplit, hval, hlt, h1, h2⟩
      · refine Or.inl ⟨heq, fun a ha => ?_⟩
        rcases List.mem_cons.mp ha with rfl | ha
        · exact le_of_not_lt h
        · exact hall a ha
      · refine Or.inr ⟨pr2, c2, q :: CS1, CS2, heq, by rw [hsplit]; rfl, hval, hlt,
          ?_, h2⟩
        intro a ha
        rcases List.mem_cons.mp ha with rfl | ha
        · exact lt_of_le_of_lt (le_of_not_lt h) hlt
        · exact h1 a ha

theorem argmaxFold_spec (probs : List (List Rat)) (CS : List (Nat × Nat))
    (hne : CS ≠ []) :
    ∃ pr c CS1 CS2, CS.foldl (argmaxUpd probs) none = some (pr, c) ∧
      CS = CS1 ++ c :: CS2 ∧ pr = (probs.getD c.2 []).getD c.1 0 ∧
      (∀ q ∈ CS1, (probs.getD q.2 []).getD q.1 0 < pr) ∧
      (∀ q ∈ CS2, (probs.getD q.2 []).getD q.1 0 ≤ pr) := by
  cases CS with
  | nil => exact absurd rfl hne
  | cons c0 CS =>
    simp only [List.foldl_cons]
    have hstep : argmaxUpd probs none c0 =
        some ((probs.getD c0.2 []).getD c0.1 0, c0) := rfl
    rw [hstep]
    rcases argmaxFold_from_some probs CS ((probs.getD c0.2 []).getD c0.1 0) c0 with
      ⟨heq, hall⟩ | ⟨pr2, c2, CS1, CS2, heq, hsplit, hval, hlt, h1, h2⟩
    · exact ⟨_, c0, [], CS, heq, rfl, rfl, by simp, hall⟩
    · refine ⟨pr2, c2, c0 :: CS1, CS2, heq, by rw [hsplit]; rfl, hval, ?_, h2⟩
      intro a ha
      rcases List.mem_cons.mp ha with rfl | ha
      · exact hlt
      · exact h1 a ha

theorem guaranteedChar_base (base : Board) (poss : List Board)
    (ignore : List (Nat × Nat)) (x y : Nat)
    (h : ((tallyAt poss x y).1 = 0 ∧ (tallyAt poss x y).2 = 0) ∨ (x, y) ∈ ignore ∨
      (0 < (tallyAt poss x y).1 ∧ (tallyAt poss x y).2 = 0 ∧
        base.cellAt x y = CellTypes.Bomb)) :
    guaranteedChar base poss ignore x y = (base.cellAt x y).char := by
  simp only [guaranteedChar, renderCell]
  rw [if_pos h]

theorem guaranteedChar_bomb (base : Board) (poss : List Board)
    (ignore : List (Nat × Nat)) (x y : Nat)
    (hb : 0 < (tallyAt poss x y).1) (hn : (tallyAt poss x y).2 = 0)
    (hig : (x, y) ∉ ignore) (hbase : base.cellAt x y ≠ CellTypes.Bomb) :
    guaranteedChar base poss ignore x y = '#' := by
  simp only [guaranteedChar, renderCell]
  rw [if_neg ?hc, if_pos ⟨hb, hn⟩]
  case hc =>
    rintro (⟨h1, -⟩ | h1 | ⟨-, -, h1⟩)
    · omega
    · exact hig h1
    · exact hbase h1

theorem guaranteedChar_safe (base : Board) (poss : List Board)
    (ignore : List (Nat × Nat)) (x y : Nat)
    (hb : (tallyAt poss x y).1 = 0) (hn : 0 < (tallyAt poss x y).2)
    (hig : (x, y) ∉ ignore) :
    guaranteedChar base poss ignore x y = 'O' := by
  simp only [guaranteedChar, renderCell]
  rw [if_neg ?hc, if_neg ?hd, if_pos ⟨hb, hn⟩]
  case hc =>
    rintro (⟨-, h1⟩ | h1 | ⟨h1, -, -⟩)
    · omega
    · exact hig h1
    · omega
  case hd =>
    rintro ⟨h1, -⟩
    omega

theorem guaranteedChar_unknown (base : Board) (poss : List Board)
    (ignore : List (Nat × Nat)) (x y : Nat)
    (hb : 0 < (tallyAt poss x y).1) (hn : 0 < (tallyAt poss x y).2)
    (hig : (x, y) ∉ ignore) :
    guaranteedChar base poss ignore x y = '?' := by
  simp only [guaranteedChar, renderCell]
  rw [if_neg ?hc, if_neg ?hd, if_neg ?he]
  case hc =>
    rintro (⟨h1, -⟩ | h1 | ⟨-, h1, -⟩)
    · omega
    · exact hig h1
    · omega
  case hd =>
    rintro ⟨-, h1⟩
    omega
  case he =>
    rintro ⟨h1, -⟩
    omega

theorem safeProb_unknown (base : Board) (poss : List Board)
    (ignore : List (Nat × Nat)) (x y : Nat)
    (hb : 0 < (tallyAt poss x y).1) (hn : 0 < (tallyAt poss x y).2)
    (hig : (x, y) ∉ ignore) :
    safeProb base poss ignore x y =
      ((tallyAt poss x y).2 : Rat) /
        (((tallyAt poss x y).2 : Rat) + ((tallyAt poss x y).1 : Rat)) := by
  simp only [safeProb, renderCell]
  rw [if_neg ?hc, if_neg ?hd, if_neg ?he]
  · simp
  case hc =>
    rintro (⟨h1, -⟩ | h1 | ⟨-, h1, -⟩)
    · omega
    · exact hig h1
    · omega
  case hd =>
    rintro ⟨-, h1⟩
    omega
  case he =>
    rintro ⟨h1, -⟩
    omega

theorem safeProb_other (base : Board) (poss : List Board)
    (ignore : List (Nat × Nat)) (x y : Nat)
    (h : guaranteedChar base poss ignore x y ≠ '?') :
    safeProb base poss ignore x y = 0 := by
  simp only [guaranteedChar, renderCell] at h
  simp only [safeProb, renderCell]
  split_ifs at h ⊢ <;> first | rfl | exact absurd rfl h

theorem getD_grid {α : Type} (d : α) (f : Nat → Nat → α) (w h x y : Nat)
    (hx : x < w) (hy : y < h) :
    (((List.range h).map (fun y => (List.range w).map (fun x => f x y))).getD y
      []).getD x d = f x y := by
  have houter : ((List.range h).map
      (fun y => (List.range w).map (fun x => f x y))).getD y [] =
      (List.range w).map (fun x => f x y) := by
    rw [List.getD_eq_getElem?_getD, List.getElem?_map, List.getElem?_range hy]
    rfl
  rw [houter, List.getD_eq_getElem?_getD, List.getElem?_map, List.getElem?_range hx]
  rfl

theorem compileGrid_output_eq (base : Board) (poss : List Board)
    (ignore : List (Nat × Nat)) :
    (compileGrid base poss ignore).output =
      (List.range base.height).map (fun y =>
        (List.range base.width).map (fun x => guaranteedChar base poss ignore x y)) := by
  rw [compileGrid_eq, gridFold_output]
  rfl

theorem compileGrid_found_false (base : Board) (poss : List Board)
    (ignore : List (Nat × Nat))
    (hno : ∀ x y, x < base.width → y < base.height →
      guaranteedChar base poss ignore x y ≠ '#' ∧
        guaranteedChar base poss ignore x y ≠ 'O') :
    (compileGrid base poss ignore).found = false := by
  cases hf : (compileGrid base poss ignore).found with
  | false => rfl
  | true =>
    exfalso
    rw [compileGrid_eq] at hf
    rcases gridFold_found_of base poss ignore _ _ hf with h | ⟨y, hy, x, hx, hc⟩
    · exact Bool.noConfusion h
    · obtain ⟨h1, h2⟩ := hno x y (List.mem_range.mp hx) (List.mem_range.mp hy)
      rcases hc with hc | hc
      · exact h1 hc
      · exact h2 hc

theorem compileGrid_probs_eq (base : Board) (poss : List Board)
    (ignore : List (Nat × Nat))
    (hf : (compileGrid base poss ignore).found = false) :
    (compileGrid base poss ignore).probs =
      (List.range base.height).map (fun y =>
        (List.range base.width).map (fun x => safeProb base poss ignore x y)) := by
  rw [compileGrid_eq] at hf ⊢
  have := gridFold_probs base poss ignore (List.range base.height) [] [] hf
  simpa using this

theorem charAt_setChar_ne (g : List (List Char)) {x y x' y' : Nat} (c : Char)
    (h : (x', y') ≠ (x, y)) : charAt (setChar g x y c) x' y' = charAt g x' y' := by
  simp only [setChar, charAt]
  by_cases hy : y' = y
  · subst hy
    have hx : x ≠ x' := fun hx => h (by rw [hx])
    by_cases hlen : y' < g.length
    · rw [list_getD_set_self _ _ _ _ hlen, list_getD_set_ne _ _ _ _ _ hx]
    · rw [List.set_eq_of_length_le (by omega)]
  · rw [list_getD_set_ne _ _ _ _ _ (fun hh => hy hh.symm)]

theorem charAt_setChar_self (g : List (List Char)) {x y : Nat} (c : Char)
    (hy : y < g.length) (hx : x < (g.getD y []).length) :
    charAt (setChar g x y c) x y = c := by
  simp only [setChar, charAt]
  rw [list_getD_set_self _ _ _ _ hy, list_getD_set_self _ _ _ _ hx]

theorem compile_guaranteed_spec_found (base : Board) (poss : List Board)
    (ignore : List (Nat × Nat))
    (hf : (compileGrid base poss ignore).found = true) :
    Board.compile_guaranteed base poss ignore =
      { output := (compileGrid base poss ignore).output, found := true,
        mark := none } := by
  simp only [Board.compile_guaranteed]
  rw [if_pos hf]

theorem compile_guaranteed_spec_notfound (base : Board) (poss : List Board)
    (ignore : List (Nat × Nat)) (mv : Rat × (Nat × Nat))
    (hf : (compileGrid base poss ignore).found = false)
    (hm : argmaxProb (compileGrid base poss ignore).probs base.width base.height =
      some mv) :
    Board.compile_guaranteed base poss ignore =
      { output := setChar (compileGrid base poss ignore).output mv.2.1 mv.2.2 '@',
        found := false, mark := some mv } := by
  simp only [Board.compile_guaranteed]
  rw [if_neg (by rw [hf]; exact Bool.noConfusion), hm]

theorem mem_rowMajorCoords (w h : Nat) (p : Nat × Nat) :
    p ∈ rowMajorCoords w h ↔ p.1 < w ∧ p.2 < h := by
  unfold rowMajorCoords
  simp only [List.mem_flatMap, List.mem_map, List.mem_range]
  constructor
  · rintro ⟨y, hy, x, hx, rfl⟩
    exact ⟨hx, hy⟩
  · intro ⟨h1, h2⟩
    exact ⟨p.2, h2, p.1, h1, rfl⟩

theorem rowMajorCoords_ne_nil {w h : Nat} (hw : 0 < w) (hh : 0 < h) :
    rowMajorCoords w h ≠ [] := by
  intro hcontra
  have : ((0, 0) : Nat × Nat) ∈ rowMajorCoords w h :=
    (mem_rowMajorCoords w h (0, 0)).mpr ⟨hw, hh⟩
  rw [hcontra] at this
  exact List.not_mem_nil _ this

theorem grid_row_getD {α : Type} (f : Nat → Nat → α) (w h y : Nat) (hy : y < h) :
    ((List.range h).map (fun y => (List.range w).map (fun x => f x y))).getD y [] =
      (List.range w).map (fun x => f x y) := by
  rw [List.getD_eq_getElem?_getD, List.getElem?_map, List.getElem?_range hy]
  rfl

/-- C5: per-coordinate classification by tallies (guaranteed bomb `#`,
guaranteed safe `O`, uncertain `?`, otherwise the base board's character,
with Ignore-set membership forcing the base character), the rendered grid
in the guaranteed case, and the no-guarantee case: the `found` flag is
false, the mark is the row-major-first maximiser of the recorded safety
probability `non_bomb / (non_bomb + bomb)`, its cell is rendered `@`, and
every other cell keeps its classification character. -/
theorem claim5_result_compiler (base : Board) (poss : List Board)
    (ignore : List (Nat × Nat)) :
    (∀ x y : Nat,
      ((((tallyAt poss x y).1 = 0 ∧ (tallyAt poss x y).2 = 0) ∨ (x, y) ∈ ignore ∨
          (0 < (tallyAt poss x y).1 ∧ (tallyAt poss x y).2 = 0 ∧
            base.cellAt x y = CellTypes.Bomb)) →
        guaranteedChar base poss ignore x y = (base.cellAt x y).char) ∧
      (0 < (tallyAt poss x y).1 → (tallyAt poss x y).2 = 0 → (x, y) ∉ ignore →
        base.cellAt x y ≠ CellTypes.Bomb →
        guaranteedChar base poss ignore x y = '#') ∧
      ((tallyAt poss x y).1 = 0 → 0 < (tallyAt poss x y).2 → (x, y) ∉ ignore →
        guaranteedChar base poss ignore x y = 'O') ∧
      (0 < (tallyAt poss x y).1 → 0 < (tallyAt poss x y).2 → (x, y) ∉ ignore →
        guaranteedChar base poss ignore x y = '?' ∧
          safeProb base poss ignore x y =
            ((tallyAt poss x y).2 : Rat) /
              (((tallyAt poss x y).2 : Rat) + ((tallyAt poss x y).1 : Rat)))) ∧
    ((compileGrid base poss ignore).found = true →
      ∀ x y, x < base.width → y < base.height →
        charAt (Board.compile_guaranteed base poss ignore).output x y =
          guaranteedChar base poss ignore x y) ∧
    (0 < base.width → 0 < base.height →
      (∀ x y, x < base.width → y < base.height →
        guaranteedChar base poss ignore x y ≠ '#' ∧
          guaranteedChar base poss ignore x y ≠ 'O') →
      ∃ pr c CS1 CS2,
        (Board.compile_guaranteed base poss ignore).found = false ∧
        (Board.compile_guaranteed base poss ignore).mark = some (pr, c) ∧
        rowMajorCoords base.width base.height = CS1 ++ c :: CS2 ∧
        c.1 < base.width ∧ c.2 < base.height ∧
        pr = safeProb base poss ignore c.1 c.2 ∧
        (∀ q ∈ CS1, safeProb base poss ignore q.1 q.2 < pr) ∧
        (∀ q ∈ CS2, safeProb base poss ignore q.1 q.2 ≤ pr) ∧
        charAt (Board.compile_guaranteed base poss ignore).output c.1 c.2 = '@' ∧
        (∀ x y, x < base.width → y < base.height → (x, y) ≠ c →
          charAt (Board.compile_guaranteed base poss ignore).output x y =
            guaranteedChar base poss ignore x y)) := by
  refine ⟨?_, ?_, ?_⟩
  · intro x y
    exact ⟨guaranteedChar_base base poss ignore x y,
      fun h1 h2 h3 h4 => guaranteedChar_bomb base poss ignore x y h1 h2 h3 h4,
      fun h1 h2 h3 => guaranteedChar_safe base poss ignore x y h1 h2 h3,
      fun h1 h2 h3 => ⟨guaranteedChar_unknown base poss ignore x y h1 h2 h3,
        safeProb_unknown base poss ignore x y h1 h2 h3⟩⟩
  · intro hf x y hx hy
    rw [compile_guaranteed_spec_found base poss ignore hf]
    simp only
    rw [compileGrid_output_eq]
    unfold charAt
    exact getD_grid ' ' _ base.width base.height x y hx hy
  · intro hw hh hno
    have hf := compileGrid_found_false base poss ignore hno
    have hprobs := compileGrid_probs_eq base poss ignore hf
    obtain ⟨pr, c, CS1, CS2, heq, hsplit, hval, h1, h2⟩ :=
      argmaxFold_spec (compileGrid base poss ignore).probs
        (rowMajorCoords base.width base.height) (rowMajorCoords_ne_nil hw hh)
    have hmark : argmaxProb (compileGrid base poss ignore).probs
        base.width base.height = some (pr, c) := by
      rw [argmaxProb_eq, heq]
    have hcg := compile_guaranteed_spec_notfound base poss ignore (pr, c) hf hmark
    have hcmem : c ∈ rowMajorCoords base.width base.height := by
      rw [hsplit]
      exact List.mem_append_right _ (List.mem_cons_self c CS2)
    obtain ⟨hcx, hcy⟩ := (mem_rowMajorCoords _ _ c).mp hcmem
    have hvalat : ∀ q : Nat × Nat, q.1 < base.width → q.2 < base.height →
        ((compileGrid base poss ignore).probs.getD q.2 []).getD q.1 0 =
          safeProb base poss ignore q.1 q.2 := by
      intro q hqx hqy
      rw [hprobs]
      exact getD_grid 0 _ base.width base.height q.1 q.2 hqx hqy
    refine ⟨pr, c, CS1, CS2, by rw [hcg], by rw [hcg], hsplit, hcx, hcy, ?_, ?_,
      ?_, ?_, ?_⟩
    · rw [hval, hvalat c hcx hcy]
    · intro q hq
      have hqm : q ∈ rowMajorCoords base.width base.height := by
        rw [hsplit]
        exact List.mem_append_left _ hq
      obtain ⟨hqx, hqy⟩ := (mem_rowMajorCoords _ _ q).mp hqm
      rw [← hvalat q hqx hqy]
      exact h1 q hq
    · intro q hq
      have hqm : q ∈ rowMajorCoords base.width base.height := by
        rw [hsplit]
        exact List.mem_append_right _ (List.mem_cons_of_mem _ hq)
      obtain ⟨hqx, hqy⟩ := (mem_rowMajorCoords _ _ q).mp hqm
      rw [← hvalat q hqx hqy]
      exact h2 q hq
    · rw [hcg]
      simp only
      apply charAt_setChar_self
      · rw [compileGrid_output_eq]
        simpa using hcy
      · rw [compileGrid_output_eq, grid_row_getD _ _ _ _ hcy]
        simpa using hcx
    · intro x y hx hy hne
      rw [hcg]
      simp only
      rw [charAt_setChar_ne _ _ (by
        intro hcontra
        apply hne
        have h1e : x = c.1 := (Prod.mk.injEq .. ▸ hcontra).1
        have h2e : y = c.2 := (Prod.mk.injEq .. ▸ hcontra).2
        rw [h1e, h2e])]
      rw [compileGrid_output_eq]
      unfold charAt
      exact getD_grid ' ' _ base.width base.height x y hx hy

theorem digitChar_ne (m : Nat) :
    Nat.digitChar m ≠ '#' ∧ Nat.digitChar m ≠ 'O' := by
  match m with
  | 0 | 1 | 2 | 3 | 4 | 5 | 6 | 7 | 8 | 9 | 10 | 11 | 12 | 13 | 14 | 15 =>
    exact ⟨by decide, by decide⟩
  | n + 16 =>
    have h : Nat.digitChar (n + 16) = '*' := by
      simp only [Nat.digitChar]
      iterate 16 rw [if_neg (by omega)]
    rw [h]
    exact ⟨by decide, by decide⟩

theorem toDigitsCore_chars (b : Nat) :
    ∀ (f n : Nat) (ds : List Char) (c : Char), c ∈ Nat.toDigitsCore b f n ds →
      (∃ m, c = Nat.digitChar m) ∨ c ∈ ds
  | 0, _, _, _, h => Or.inr h
  | f + 1, n, ds, c, h => by
    simp only [Nat.toDigitsCore] at h
    split at h
    · rcases List.mem_cons.mp h with h | h
      · exact Or.inl ⟨n % b, h⟩
      · exact Or.inr h
    · rcases toDigitsCore_chars b f (n / b) _ c h with h | h
      · exact Or.inl h
      · rcases List.mem_cons.mp h with h | h
        · exact Or.inl ⟨n % b, h⟩
        · exact Or.inr h

theorem char_ne_marks (c : CellTypes) :
    c.char ≠ '#' ∧ c.char ≠ 'O' := by
  cases c with
  | Covered => exact ⟨by decide, by decide⟩
  | Bomb => exact ⟨by decide, by decide⟩
  | Value v =>
    simp only [CellTypes.char]
    split_ifs
    · exact ⟨by decide, by decide⟩
    · cases hd : Nat.toDigits 10 v with
      | nil => exact ⟨by decide, by decide⟩
      | cons a l =>
        simp only [List.headD_cons]
        have ha : a ∈ Nat.toDigits 10 v := by
          rw [hd]
          exact List.mem_cons_self a l
        rcases toDigitsCore_chars 10 _ _ _ a ha with ⟨m, rfl⟩ | h
        · exact digitChar_ne m
        · exact absurd h (List.not_mem_nil a)

theorem rowMajorCoords_head {w h : Nat} (hw : 0 < w) (hh : 0 < h) :
    ∃ L, rowMajorCoords w h = (0, 0) :: L := by
  obtain ⟨w', rfl⟩ : ∃ v, w = v + 1 := ⟨w - 1, by omega⟩
  obtain ⟨h', rfl⟩ : ∃ v, h = v + 1 := ⟨h - 1, by omega⟩
  refine ⟨((List.range w').map Nat.succ).map (fun x => (x, (0 : Nat))) ++
    ((List.range h').map Nat.succ).flatMap
      (fun y => (List.range (w' + 1)).map (fun x => (x, y))), ?_⟩
  unfold rowMajorCoords
  rw [List.range_succ_eq_map, List.flatMap_cons, List.range_succ_eq_map,
    List.map_cons]
  rfl

/-- C10: with an empty completion set every tally is (0, 0), so every
coordinate renders the base board's own character (never `#` or `O`), every
recorded safety probability is 0, the `found` flag stays false, the marked
coordinate is (0, 0) with probability 0 (printed as 0.00%), and the `@`
overwrites whatever the cell at (0, 0) rendered as, while all other cells
keep their base character. -/
theorem claim10_empty_possibilities (base : Board) (ignore : List (Nat × Nat))
    (hw : 0 < base.width) (hh : 0 < base.height) :
    (∀ x y : Nat,
      guaranteedChar base [] ignore x y = (base.cellAt x y).char ∧
      guaranteedChar base [] ignore x y ≠ '#' ∧
      guaranteedChar base [] ignore x y ≠ 'O' ∧
      safeProb base [] ignore x y = 0) ∧
    (Board.compile_guaranteed base [] ignore).found = false ∧
    (Board.compile_guaranteed base [] ignore).mark = some (0, (0, 0)) ∧
    charAt (Board.compile_guaranteed base [] ignore).output 0 0 = '@' ∧
    (∀ x y, x < base.width → y < base.height → (x, y) ≠ (0, 0) →
      charAt (Board.compile_guaranteed base [] ignore).output x y =
        (base.cellAt x y).char) := by
  have hcell : ∀ x y : Nat,
      guaranteedChar base [] ignore x y = (base.cellAt x y).char ∧
      guaranteedChar base [] ignore x y ≠ '#' ∧
      guaranteedChar base [] ignore x y ≠ 'O' ∧
      safeProb base [] ignore x y = 0 := by
    intro x y
    have hg := guaranteedChar_base base [] ignore x y (Or.inl ⟨rfl, rfl⟩)
    refine ⟨hg, ?_, ?_, ?_⟩
    · rw [hg]; exact (char_ne_marks _).1
    · rw [hg]; exact (char_ne_marks _).2
    · simp only [safeProb, renderCell]
      rw [if_pos (Or.inl ⟨rfl, rfl⟩)]
  have hno : ∀ x y, x < base.width → y < base.height →
      guaranteedChar base [] ignore x y ≠ '#' ∧
        guaranteedChar base [] ignore x y ≠ 'O' := by
    intro x y _ _
    exact ⟨(hcell x y).2.1, (hcell x y).2.2.1⟩
  have hf := compileGrid_found_false base [] ignore hno
  have hprobs := compileGrid_probs_eq base [] ignore hf
  have hvalat : ∀ q : Nat × Nat, q.1 < base.width → q.2 < base.height →
      ((compileGrid base [] ignore).probs.getD q.2 []).getD q.1 0 = 0 := by
    intro q hqx hqy
    rw [hprobs, getD_grid 0 _ base.width base.height q.1 q.2 hqx hqy]
    exact (hcell q.1 q.2).2.2.2
  obtain ⟨pr, c, CS1, CS2, heq, hsplit, hval, h1, _⟩ :=
    argmaxFold_spec (compileGrid base [] ignore).probs
      (rowMajorCoords base.width base.height) (rowMajorCoords_ne_nil hw hh)
  have hcmem : c ∈ rowMajorCoords base.width base.height := by
    rw [hsplit]
    exact List.mem_append_right _ (List.mem_cons_self c CS2)
  obtain ⟨hcx, hcy⟩ := (mem_rowMajorCoords _ _ c).mp hcmem
  have hpr0 : pr = 0 := by rw [hval]; exact hvalat c hcx hcy
  have hCS1 : CS1 = [] := by
    cases hc1 : CS1 with
    | nil => rfl
    | cons q L =>
      exfalso
      have hqm : q ∈ rowMajorCoords base.width base.height := by
        rw [hsplit, hc1]
        exact List.mem_append_left _ (List.mem_cons_self q L)
      obtain ⟨hqx, hqy⟩ := (mem_rowMajorCoords _ _ q).mp hqm
      have := h1 q (by rw [hc1]; exact List.mem_cons_self q L)
      rw [hvalat q hqx hqy, hpr0] at this
      exact absurd this (lt_irrefl 0)
  obtain ⟨L, hL⟩ := rowMajorCoords_head hw hh
  have hc00 : c = (0, 0) := by
    rw [hCS1, List.nil_append, hL] at hsplit
    exact (List.cons.injEq .. ▸ hsplit).1.symm
  have hmark : argmaxProb (compileGrid base [] ignore).probs
      base.width base.height = some (0, (0, 0)) := by
    rw [argmaxProb_eq, heq, hpr0, hc00]
  have hcg := compile_guaranteed_spec_notfound base [] ignore (0, (0, 0)) hf hmark
  refine ⟨hcell, by rw [hcg], by rw [hcg], ?_, ?_⟩
  · rw [hcg]
    simp only
    apply charAt_setChar_self
    · rw [compileGrid_output_eq]
      simpa using hh
    · rw [compileGrid_output_eq, grid_row_getD _ _ _ _ hh]
      simpa using hw
  · intro x y hx hy hne
    rw [hcg]
    simp only
    rw [charAt_setChar_ne _ _ hne]
    rw [compileGrid_output_eq]
    unfold charAt
    rw [getD_grid ' ' _ base.width base.height x y hx hy]
    exact (hcell x y).1

/-- A 1x1 base board with a single Covered cell, for exercising the result
compiler. -/
def exC5Base : Board := { board := [[CellTypes.Covered]], width := 1, height := 1 }

/-- A 1x1 completion in which that cell is a Bomb. -/
def exC5Poss : Board := { board := [[CellTypes.Bomb]], width := 1, height := 1 }

theorem claim5_result_compiler_witness :
    (compileGrid exC5Base [exC5Poss] []).found = true ∧
    charAt (Board.compile_guaranteed exC5Base [exC5Poss] []).output 0 0 =
      guaranteedChar exC5Base [exC5Poss] [] 0 0 ∧
    guaranteedChar exC5Base [exC5Poss] [] 0 0 = '#' := by
  refine ⟨by decide, ?_, ?_⟩
  · exact (claim5_result_compiler exC5Base [exC5Poss] []).2.1 (by decide) 0 0
      (by decide) (by decide)
  · exact ((claim5_result_compiler exC5Base [exC5Poss] []).1 0 0).2.1 (by decide)
      (by decide) (by decide) (by decide)

/-- A 1x1 base board whose only cell is the revealed value 1: with an empty
completion set the compiler overwrites even this revealed cell with `@`. -/
def exC10Base : Board :=
  { board := [[CellTypes.Value 1]], width := 1, height := 1 }

theorem claim10_empty_possibilities_witness :
    0 < exC10Base.width ∧ 0 < exC10Base.height ∧
    (Board.compile_guaranteed exC10Base [] []).mark = some (0, (0, 0)) ∧
    charAt (Board.compile_guaranteed exC10Base [] []).output 0 0 = '@' :=
  ⟨by decide, by decide,
    (claim10_empty_possibilities exC10Base [] (by decide) (by decide)).2.2.1,
    (claim10_empty_possibilities exC10Base [] (by decide) (by decide)).2.2.2.1⟩

end Minesweeper
